import Mathlib

/-!
Verification of the SuperMechs bot core against its specification.

This file gives a shallow embedding, in Lean, of the core algorithmic parts of
the repository:

* the arena-buff engine (`ArenaBuffs.get_percent`, `ArenaBuffs.total_buff`,
  `ArenaBuffs.buff_stats` from `SuperMechs/core.py`),
* the predicate expression engine (`Selector` / `Operator` / `Manager` from
  `ui/orm_views.py`),
* the name-abbreviation index (`abbreviate_name` / `abbreviate_names`) and the
  fuzzy resolver (`get_matching_items`), together with a full model of the
  `difflib.SequenceMatcher` similarity algorithm the resolver calls into.

Conventions used throughout:

* Python `int` is modelled as `Int`; Python sequences and dicts as `List`
  (dicts are association lists in insertion order with unique keys, mirroring
  CPython's ordered dicts).
* Fallible Python code is modelled with `Except PyErr`; each constructor of
  `PyErr` names the Python exception class the source raises.
* Python `round` is applied by the source to an IEEE-754 double; here it is
  modelled as banker's rounding (round-half-to-even, matching CPython `round`)
  applied to the exact rational value of the expression.
* String predicates (`str.isupper`, `str.istitle`, `str.lower`) are modelled
  on ASCII, which covers the game's item names.
-/

/-- Decidable equality of `Except` results, used to evaluate the embedded
functions on concrete inputs. -/
instance {ε α : Type} [DecidableEq ε] [DecidableEq α] : DecidableEq (Except ε α) := fun a b =>
  match a, b with
  | .ok x, .ok y =>
    if h : x = y then .isTrue (by rw [h]) else .isFalse (by intro hc; cases hc; exact h rfl)
  | .error e, .error f =>
    if h : e = f then .isTrue (by rw [h]) else .isFalse (by intro hc; cases hc; exact h rfl)
  | .ok _, .error _ => .isFalse (by intro hc; cases hc)
  | .error _, .ok _ => .isFalse (by intro hc; cases hc)

/-- The Python exceptions raised by the modelled code. -/
inductive PyErr where
  /-- `TypeError` (the spec's `InvalidOperation` / `InvalidComparison`). -/
  | typeError
  /-- `IndexError` (the spec's `IndexOutOfRange`). -/
  | indexError
  /-- `ValueError` (the spec's `AmbiguityOverflow`). -/
  | valueError
  /-- `KeyError`: dict subscript on a missing key. -/
  | keyError
  /-- `AssertionError`: a failing `assert` statement. -/
  | assertionError
  /-- `AttributeError`: attribute lookup on a missing attribute. -/
  | attributeError
  deriving DecidableEq, Repr

/-! ## Arena buff engine (`SuperMechs/core.py`, class `ArenaBuffs`) -/

namespace ArenaBuffs

/-- `ArenaBuffs.BASE_PERCENT = (0, 1, 3, 5, 7, 9, 11, 13, 15, 17, 20)`. -/
def BASE_PERCENT : List Int := [0, 1, 3, 5, 7, 9, 11, 13, 15, 17, 20]

/-- `ArenaBuffs.HP_INCREASES = (0, 10, 30, 60, 90, 120, 150, 180, 220, 260, 300, 350)`. -/
def HP_INCREASES : List Int := [0, 10, 30, 60, 90, 120, 150, 180, 220, 260, 300, 350]

/-- `ArenaBuffs.STATS_REFERENCE`. -/
def STATS_REFERENCE : List String :=
  ["eneCap", "eneReg", "eneDmg", "heaCap", "heaCol", "heaDmg", "phyDmg",
   "expDmg", "eleDmg", "phyRes", "expRes", "eleRes", "health", "backfire"]

/-- Python sequence subscript `xs[i]` on a tuple of ints: a negative index
counts from the end; an index out of `[-len, len)` raises `IndexError`. -/
def pyIndex (xs : List Int) (i : Int) : Except PyErr Int :=
  let j : Int := if i < 0 then i + xs.length else i
  if h : 0 ≤ j ∧ j.toNat < xs.length then .ok (xs.get ⟨j.toNat, h.2⟩)
  else .error .indexError

/-- CPython `round` produces the nearest integer, ties going to the even
integer (banker's rounding).  The source applies it to an IEEE-754 double;
here it is applied to the exact rational value of the same expression.
`f` is the floor of `q`; doubling the fractional remainder and comparing it
with the denominator decides between `f`, `f + 1` and the half-way tie. -/
def pyRound (q : ℚ) : ℤ :=
  let f : ℤ := q.num.fdiv q.den
  let r2 : ℤ := 2 * (q.num - f * q.den)
  if r2 < q.den then f
  else if (q.den : ℤ) < r2 then f + 1
  else if f % 2 = 0 then f else f + 1

/-- The buff levels held by an `ArenaBuffs` instance: the `self.levels` dict,
as an association list from stat name to level. -/
abbrev Levels := List (String × Int)

/-- Dict lookup `levels[stat]` as an `Option` (first binding wins). -/
def lookupLevel (levels : Levels) (stat : String) : Option Int :=
  (levels.find? (fun p => p.1 = stat)).map (·.2)

/-- `ArenaBuffs.get_percent(stat_name, level)`: `match` on the stat name;
`"health"` raises `TypeError`, `"backfire"` negates the percent-table entry,
the three resistances double it, everything else returns it unchanged. -/
def get_percent (stat_name : String) (level : Int) : Except PyErr Int :=
  if stat_name = "health" then .error .typeError
  else if stat_name = "backfire" then (pyIndex BASE_PERCENT level).map (fun p => -p)
  else if stat_name = "expRes" ∨ stat_name = "eleRes" ∨ stat_name = "phyRes" then
    (pyIndex BASE_PERCENT level).map (fun p => p * 2)
  else pyIndex BASE_PERCENT level

/-- `ArenaBuffs.total_buff(stat, value)`: a stat absent from `self.levels`
passes through; `"health"` adds the absolute table entry; every other stat is
scaled by `round(value * (1 + percent / 100))`. -/
def total_buff (levels : Levels) (stat : String) (value : Int) : Except PyErr Int :=
  match lookupLevel levels stat with
  | none => .ok value
  | some level =>
    if stat = "health" then (pyIndex HP_INCREASES level).map (fun d => value + d)
    else do
      let p ← get_percent stat level
      -- `round(value * (1 + percent / 100))`: the exact rational value of the
      -- argument is `value * (100 + percent) / 100`.
      pure (pyRound (mkRat (value * (100 + p)) 100))

/-- A value of the stats bag fed to `buff_stats`: a plain int or a list of
ints (a min-max damage spread). -/
inductive StatValue where
  | int (v : Int)
  | list (vs : List Int)
  deriving DecidableEq, Repr

/-- A stats bag (`AnyStats`): a dict from stat name to value, in insertion
order with unique keys. -/
abbrev StatsBag := List (String × StatValue)

/-- `ArenaBuffs.buff_stats(stats, buff_health=...)`: builds the output dict
entry by entry.  A `"health"` entry with `buff_health` false is asserted to be
a plain int and copied unchanged; list values are buffed element-wise; int
values are buffed once. -/
def buff_stats (levels : Levels) (stats : StatsBag) (buff_health : Bool) :
    Except PyErr StatsBag :=
  match stats with
  | [] => .ok []
  | (key, value) :: rest => do
    let entry ←
      if key = "health" ∧ buff_health = false then
        match value with
        | .int v => pure (key, StatValue.int v)
        | .list _ => .error .assertionError
      else
        match value with
        | .list vs => do
          let vs' ← vs.mapM (total_buff levels key)
          pure (key, StatValue.list vs')
        | .int v => do
          let v' ← total_buff levels key v
          pure (key, StatValue.int v')
    let rest' ← buff_stats levels rest buff_health
    pure (entry :: rest')

end ArenaBuffs

/-! ## Name abbreviation index (`SuperMechs/core.py`, module functions) -/

namespace Core

/-- A cased character in the ASCII range (Python's `str.isupper` / `str.istitle`
only look at cased characters). -/
def isCased (c : Char) : Bool := c.isUpper || c.isLower

/-- Python `str.isupper`: at least one cased character and no lowercase one. -/
def pyIsUpper (s : String) : Bool :=
  s.data.any isCased && s.data.all (fun c => !c.isLower)

/-- Scanner for Python `str.istitle`: uppercase letters may only follow
uncased characters, lowercase letters only cased ones, and at least one cased
character must occur. -/
def pyIsTitleAux : List Char → Bool → Bool → Bool
  | [], _, hasCased => hasCased
  | c :: rest, prevCased, hasCased =>
    if c.isUpper then
      if prevCased then false else pyIsTitleAux rest true true
    else if c.isLower then
      if prevCased then pyIsTitleAux rest true true else false
    else pyIsTitleAux rest false hasCased

/-- Python `str.istitle`. -/
def pyIsTitle (s : String) : Bool := pyIsTitleAux s.data false false

/-- Python `str.lower` on ASCII. -/
def pyLower (s : String) : String := ⟨s.data.map Char.toLower⟩

/-- `name.replace(" ", "")`: with a single-character pattern this removes
every space. -/
def squash (s : String) : String := ⟨s.data.filter (fun c => c ≠ ' ')⟩

/-- The fragment loop of `abbreviate_names`: walk the name, cutting right
before each uppercase letter; emit every non-empty piece lowercased, and the
final piece unconditionally (`HeronMark => heron, mark`).  `cur` is the piece
accumulated since the last cut. -/
def fragsAux : List Char → List Char → List String → List String
  | [], cur, acc => acc ++ [⟨cur.map Char.toLower⟩]
  | c :: rest, cur, acc =>
    if c.isUpper then
      if cur.isEmpty then fragsAux rest [c] acc
      else fragsAux rest [c] (acc ++ [⟨cur.map Char.toLower⟩])
    else fragsAux rest (cur ++ [c]) acc

/-- The pieces of a name split at uppercase-letter boundaries, lowercased. -/
def frags (name : String) : List String := fragsAux name.data [] []

/-- `abbreviate_name(name)`: `None` when the name is entirely uppercase or is
a single (spaceless) title-cased word; otherwise all uppercase letters of the
name, lowercased and concatenated. -/
def abbreviate_name (name : String) : Option String :=
  if pyIsUpper name || (!(name.data.contains ' ') && pyIsTitle name) then none
  else some ⟨(name.data.filter Char.isUpper).map Char.toLower⟩

/-- Python `set.add`: sets are modelled as duplicate-free lists in insertion
order. -/
def setAdd (s : List String) (x : String) : List String :=
  if x ∈ s then s else s ++ [x]

/-- `abbrevs.setdefault(key, {name}).add(name)`: create-or-extend the name
set stored under `key`. -/
def dictSetdefaultAdd (d : List (String × List String)) (key name : String) :
    List (String × List String) :=
  match d with
  | [] => [(key, [name])]
  | (k, s) :: rest =>
    if k = key then (k, setAdd s name) :: rest
    else (k, s) :: dictSetdefaultAdd rest key name

/-- The alias set `abbrev` built for one name inside `abbreviate_names`: the
primary abbreviation, plus the squashed lowercased name for multi-word names,
plus the uppercase-boundary fragments for non-title-cased single words. -/
def abbrevAliases (name : String) (abb : String) : List String :=
  let base := [abb]
  if name.data.contains ' ' then
    setAdd base (pyLower (squash name))
  else if !pyIsTitle name then
    (frags name).foldl setAdd base
  else base

/-- `abbreviate_names(names)`: fold every name's alias set into the
abbreviation index; a name abbreviated to `None` contributes nothing. -/
def abbreviate_names (names : List String) : List (String × List String) :=
  names.foldl
    (fun d name =>
      match abbreviate_name name with
      | none => d
      | some abb => (abbrevAliases name abb).foldl (fun d k => dictSetdefaultAdd d k name) d)
    []

/-- Python dict lookup `d.get(key)` on an association list. -/
def dictLookup {α : Type _} (d : List (String × α)) (key : String) : Option α :=
  (d.find? (fun p => p.1 = key)).map (·.2)

end Core

/-! ## `difflib.SequenceMatcher`

`get_matching_items` scores similarity with
`SequenceMatcher(lambda x: x == " ")`, setting `seq2` to the query and `seq1`
to each item name.  This section models the matcher's `ratio`, `quick_ratio`
and `real_quick_ratio` on the exact rationals they compute.  Sequences are
`List Char`; the junk second-sequence preprocessing (`__chain_b`), including
the `autojunk` popularity heuristic, is reproduced. -/

namespace Difflib

/-- A sequence handed to the matcher. -/
abbrev Chars := List Char

/-- Read `s[i]`; only ever used at in-bounds indices by the algorithm. -/
def getC (s : Chars) (i : Nat) : Char := s.getD i ' '

/-- Number of occurrences of `c` in `s`. -/
def countChar (s : Chars) (c : Char) : Nat := (s.filter (fun x => x = c)).length

/-- The junk test the resolver passes: `lambda x: x == " "`. -/
def isjunk (c : Char) : Bool := c = ' '

/-- `self.bjunk`: the junk characters that occur in `b`. -/
def bjunk (b : Chars) (c : Char) : Bool := decide (c ∈ b) && isjunk c

/-- `self.bpopular`: with `autojunk`, a non-junk character of a `b` of length
at least 200 occurring more than `len(b) // 100 + 1` times. -/
def bpopular (b : Chars) (c : Char) : Bool :=
  if 200 ≤ b.length then
    decide (c ∈ b) && !bjunk b c && decide (b.length / 100 + 1 < countChar b c)
  else false

/-- A character with an entry in `b2j` (neither junk nor popular). -/
def anchored (b : Chars) (c : Char) : Bool := !bjunk b c && !bpopular b c

/-- `self.b2j[c]`: the ascending positions of `c` in `b`, except that junk
and popular characters have their entries deleted. -/
def b2j (b : Chars) (c : Char) : List Nat :=
  if anchored b c then (List.range b.length).filter (fun j => getC b j = c) else []

/-- The running best match of `find_longest_match`:
`besti, bestj, bestk = alo, blo, 0` initially. -/
structure Match3 where
  besti : Nat
  bestj : Nat
  bestk : Nat
  deriving DecidableEq, Repr

/-- The inner loop of `find_longest_match` for a fixed `i`: for each position
`j` of `a[i]` in `b` (already restricted to `[blo, bhi)`), the run length is
`k = j2len.get(j-1, 0) + 1` from the previous row, recorded in the new row;
a strictly longer run becomes the new best `(i-k+1, j-k+1, k)`. -/
def dpProcessJ (j2len : Nat → Nat) (i : Nat) :
    List Nat → (Nat → Nat) → Match3 → ((Nat → Nat) × Match3)
  | [], newj2len, best => (newj2len, best)
  | j :: js, newj2len, best =>
    let k := (if j = 0 then 0 else j2len (j - 1)) + 1
    let newj2len' : Nat → Nat := fun x => if x = j then k else newj2len x
    let best' := if best.bestk < k then ⟨i + 1 - k, j + 1 - k, k⟩ else best
    dpProcessJ j2len i js newj2len' best'

/-- The outer loop of `find_longest_match` over `i in range(alo, ahi)`.
`j2len` is the previous row (empty dict modelled as the all-zero map).  The
`j < blo: continue` / `j >= bhi: break` filtering of the ascending position
list keeps exactly the positions in `[blo, bhi)`. -/
def dpOuter (a : Chars) (b2jf : Char → List Nat) (blo bhi : Nat) :
    List Nat → (Nat → Nat) → Match3 → Match3
  | [], _, best => best
  | i :: is, j2len, best =>
    let js := ((b2jf (getC a i)).takeWhile (fun j => j < bhi)).filter (fun j => blo ≤ j)
    let r := dpProcessJ j2len i js (fun _ => 0) best
    dpOuter a b2jf blo bhi is r.1 r.2

/-- The two backward extension `while` loops of `find_longest_match`: extend
the match by preceding equal characters whose `b`-side junkness equals
`wantJunk` (first the non-junk pass, later the junk pass).  The `fuel`
argument only bounds the loop for Lean's termination checker: every
iteration decreases `besti` by one, so passing `besti` itself as fuel at the
call site makes it never the binding constraint. -/
def extendBack (a b : Chars) (alo blo : Nat) (wantJunk : Bool) (junk : Char → Bool) :
    Nat → Match3 → Match3
  | 0, m => m
  | fuel + 1, ⟨bi, bj, bk⟩ =>
    if alo < bi ∧ blo < bj ∧ junk (getC b (bj - 1)) = wantJunk ∧
        getC a (bi - 1) = getC b (bj - 1) then
      extendBack a b alo blo wantJunk junk fuel ⟨bi - 1, bj - 1, bk + 1⟩
    else ⟨bi, bj, bk⟩

/-- The two forward extension `while` loops of `find_longest_match`; the
`fuel` is `ahi - (besti + bestk)` at the call site, which every iteration
decreases by one, so it is never the binding constraint. -/
def extendFwd (a b : Chars) (ahi bhi : Nat) (wantJunk : Bool) (junk : Char → Bool) :
    Nat → Match3 → Match3
  | 0, m => m
  | fuel + 1, ⟨bi, bj, bk⟩ =>
    if bi + bk < ahi ∧ bj + bk < bhi ∧ junk (getC b (bj + bk)) = wantJunk ∧
        getC a (bi + bk) = getC b (bj + bk) then
      extendFwd a b ahi bhi wantJunk junk fuel ⟨bi, bj, bk + 1⟩
    else ⟨bi, bj, bk⟩

/-- `find_longest_match(alo, ahi, blo, bhi)`: the dynamic-programming scan
followed by the four extension loops (non-junk backward, non-junk forward,
junk backward, junk forward). -/
def findLongestMatch (a b : Chars) (b2jf : Char → List Nat) (junk : Char → Bool)
    (alo ahi blo bhi : Nat) : Match3 :=
  let st0 := dpOuter a b2jf blo bhi (List.range' alo (ahi - alo)) (fun _ => 0) ⟨alo, blo, 0⟩
  let st1 := extendBack a b alo blo false junk st0.besti st0
  let st2 := extendFwd a b ahi bhi false junk (ahi - (st1.besti + st1.bestk)) st1
  let st3 := extendBack a b alo blo true junk st2.besti st2
  extendFwd a b ahi bhi true junk (ahi - (st3.besti + st3.bestk)) st3

/-- The total size of the matching blocks collected by
`get_matching_blocks`: the queue-driven recursion sums the size of the
longest match of each interval and recurses on what is left on either side.
The `fuel` argument only bounds the recursion depth for Lean's termination
checker: each recursive call shrinks the interval, so the initial fuel
`len(a) + len(b) + 1` is never exhausted. -/
def matchesSumFuel (a b : Chars) (b2jf : Char → List Nat) (junk : Char → Bool) :
    Nat → Nat → Nat → Nat → Nat → Nat
  | 0, _, _, _, _ => 0
  | fuel + 1, alo, ahi, blo, bhi =>
    let m := findLongestMatch a b b2jf junk alo ahi blo bhi
    if m.bestk = 0 then 0
    else
      m.bestk
        + (if alo < m.besti ∧ blo < m.bestj then
            matchesSumFuel a b b2jf junk fuel alo m.besti blo m.bestj
          else 0)
        + (if m.besti + m.bestk < ahi ∧ m.bestj + m.bestk < bhi then
            matchesSumFuel a b b2jf junk fuel (m.besti + m.bestk) ahi (m.bestj + m.bestk) bhi
          else 0)

/-- Specification of a `j2len` chain value when both sequences are the same
list `a`: the length of the maximal run of positions ending at `(i, j)` with
pairwise equal, `anc`-anchored characters, staying at or above `lo`.  The
scan's rows compute exactly these values (proved below), which is what makes
the diagonal argument for equal sequences go through. -/
def chainLen (a : Chars) (anc : Char → Bool) (lo : Nat) : Nat → Nat → Nat
  | i, j =>
    if lo ≤ i ∧ lo ≤ j ∧ getC a i = getC a j ∧ anc (getC a j) then
      1 + (if h : lo < i ∧ lo < j then chainLen a anc lo (i - 1) (j - 1) else 0)
    else 0
  termination_by i _ => i

/-- `sum(size for (_, _, size) in self.get_matching_blocks())`. -/
def seqMatches (a b : Chars) : Nat :=
  matchesSumFuel a b (b2j b) (bjunk b) (a.length + b.length + 1) 0 a.length 0 b.length

/-- `_calculate_ratio(matches, length)`: `2.0 * matches / length`, and `1.0`
for two empty sequences. -/
def calculateRatio (m len : Nat) : ℚ :=
  if len ≠ 0 then mkRat (2 * m) len else 1

/-- `SequenceMatcher.ratio()`. -/
def ratio (a b : Chars) : ℚ := calculateRatio (seqMatches a b) (a.length + b.length)

/-- The loop of `quick_ratio`: walk `a`, drawing each character from the
remaining multiset of `b`'s characters (`avail`, backed by the full counts),
counting the successful draws. -/
def quickAux (fullb : Char → Nat) : Chars → (Char → Option Int) → Nat → Nat
  | [], _, acc => acc
  | c :: rest, avail, acc =>
    let numb : Int :=
      match avail c with
      | some n => n
      | none => (fullb c : Int)
    quickAux fullb rest (fun x => if x = c then some (numb - 1) else avail x)
      (if 0 < numb then acc + 1 else acc)

/-- `SequenceMatcher.quick_ratio()`: an upper bound on `ratio` from character
multiset intersection. -/
def quick_ratio (a b : Chars) : ℚ :=
  calculateRatio (quickAux (countChar b) a (fun _ => none) 0) (a.length + b.length)

/-- `SequenceMatcher.real_quick_ratio()`: the cheapest upper bound,
`2 * min(len(a), len(b)) / (len(a) + len(b))`. -/
def real_quick_ratio (a b : Chars) : ℚ :=
  calculateRatio (min a.length b.length) (a.length + b.length)

end Difflib

/-! ## Fuzzy resolver (`SuperMechs/core.py`, `get_matching_items`) -/

namespace Core

/-- The resolver's acceptance test for one item name (`seq1 = a`) against the
query (`seq2 = b`): `real_quick_ratio`, `quick_ratio` and `ratio` must all
reach the cutoff `0.6` (exactly `3/5`; the source compares IEEE doubles). -/
def matchPred (a b : Difflib.Chars) : Bool :=
  decide (mkRat 3 5 ≤ Difflib.real_quick_ratio a b) &&
  decide (mkRat 3 5 ≤ Difflib.quick_ratio a b) &&
  decide (mkRat 3 5 ≤ Difflib.ratio a b)

/-- The `matched` list: for each corpus entry in order, lowercase the item
name into `seq1`; if the acceptance test passes, record
`(matcher.ratio(), mapping[item_name])`. -/
def fuzzyMatched {α : Type _} (mapping : List (String × α)) (nameL : Difflib.Chars) :
    List (ℚ × α) :=
  mapping.filterMap fun p =>
    let a := (pyLower p.1).data
    if matchPred a nameL then some (Difflib.ratio a nameL, p.2) else none

/-- Stable descending insertion by ratio: an element is placed after every
earlier element of greater-or-equal ratio. -/
def insertDesc {α : Type _} (x : ℚ × α) : List (ℚ × α) → List (ℚ × α)
  | [] => [x]
  | y :: ys => if y.1 ≤ x.1 then x :: y :: ys else y :: insertDesc x ys

/-- Stable descending sort by ratio. -/
def sortDesc {α : Type _} (xs : List (ℚ × α)) : List (ℚ × α) :=
  xs.foldr insertDesc []

/-- `heapq.nlargest(n, iterable, key)`: the `n` largest elements by key, in
descending order, ties broken by original position (the documented behaviour:
`sorted(iterable, key=key, reverse=True)[:n]`). -/
def nlargest {α : Type _} (n : Nat) (xs : List (ℚ × α)) : List (ℚ × α) :=
  (sortDesc xs).take n

/-- `mapping[name]` inside the abbreviation branch: a registered name that
is not a key of the corpus raises `KeyError`. -/
def lookupOrKeyError {α : Type _} (mapping : List (String × α)) (n : String) :
    Except PyErr α :=
  match dictLookup mapping n with
  | some v => Except.ok v
  | none => Except.error PyErr.keyError

/-- `get_matching_items(mapping, name, abbrevs, limit=25)`: exact
abbreviation hits first (raising `ValueError` when they exceed `limit`), then
the fuzzy matches, best first, up to `limit` in total.  `limit` is
non-negative in every call site; `limit - len(items)` that would be negative
in Python makes `nlargest` return `[]`, as truncated subtraction does here. -/
def get_matching_items {α : Type _} (mapping : List (String × α)) (name : String)
    (abbrevs : List (String × List String)) (limit : Nat) : Except PyErr (List α) := do
  let nameL := pyLower name
  let items ←
    match dictLookup abbrevs nameL with
    | some item_names =>
      if limit < item_names.length then Except.error PyErr.valueError
      else item_names.mapM (lookupOrKeyError mapping)
    | none => Except.ok ([] : List α)
  let matched := fuzzyMatched mapping nameL.data
  if matched.isEmpty then pure items
  else pure (items ++ (nlargest (limit - items.length) matched).map Prod.snd)

end Core

/-! ## Predicate expression engine (`ui/orm_views.py`) -/

namespace Orm

/-- A Python value flowing through `Operator.get`: the entity attributes and
literals compared by the predicates (ints, bools, strings). -/
inductive PyVal where
  | int (i : Int)
  | bool (b : Bool)
  | str (s : String)
  deriving DecidableEq, Repr

/-- The comparison / logical functions from the `operator` module stored in
`Operator` nodes. -/
inductive PyFunc where
  | eq | gt | ge | lt | le
  /-- `operator.and_` (`&`). -/
  | and_
  /-- `operator.or_` (`|`). -/
  | or_
  deriving DecidableEq, Repr

/-- An operand of an `Operator` node: a nested `Operator`, a `Selector`
(recorded by its attribute name), or a literal.  This is the expression tree
the overloaded comparison operators build. -/
inductive OpTree where
  /-- A `Selector` operand, resolved by `getattr(value, attribute)`. -/
  | selector (attr : String)
  /-- A literal operand, resolved to itself. -/
  | lit (v : PyVal)
  /-- An `Operator(func, right, left)` node. -/
  | node (func : PyFunc) (right left : OpTree)
  deriving DecidableEq, Repr

/-- Python `bool` is an `int` subclass: `True == 1`.  Numeric coercion used by
comparisons. -/
def PyVal.toIntVal : PyVal → Option Int
  | .int i => some i
  | .bool b => some (if b then 1 else 0)
  | .str _ => none

/-- Python `==` on mixed values: numeric values compare numerically, strings
compare as strings, and a string never equals a number (no `TypeError`). -/
def pyEq (a b : PyVal) : Bool :=
  match a, b with
  | .str s, .str t => s = t
  | a, b =>
    match a.toIntVal, b.toIntVal with
    | some x, some y => x = y
    | _, _ => false

/-- Python ordering comparisons: numbers compare numerically, strings
lexicographically, and mixing the two raises `TypeError`. -/
def pyCmp (f : Int → Int → Bool) (g : String → String → Bool) (a b : PyVal) :
    Except PyErr Bool :=
  match a, b with
  | .str s, .str t => .ok (g s t)
  | a, b =>
    match a.toIntVal, b.toIntVal with
    | some x, some y => .ok (f x y)
    | _, _ => .error .typeError

/-- Applying the stored `operator` function to the two resolved operands.
`operator.and_` / `operator.or_` are bitwise `&` / `|`; the predicates built
by this engine only ever combine boolean results, which is the case modelled
here (bitwise `&` of two ints does not occur in the source's predicates). -/
def applyFunc (f : PyFunc) (a b : PyVal) : Except PyErr PyVal :=
  match f with
  | .eq => .ok (.bool (pyEq a b))
  | .gt => (pyCmp (fun x y => y < x) (fun s t => t < s) a b).map .bool
  | .ge => (pyCmp (fun x y => y ≤ x) (fun s t => t ≤ s) a b).map .bool
  | .lt => (pyCmp (fun x y => x < y) (fun s t => s < t) a b).map .bool
  | .le => (pyCmp (fun x y => x ≤ y) (fun s t => s ≤ t) a b).map .bool
  | .and_ =>
    match a, b with
    | .bool x, .bool y => .ok (.bool (x && y))
    | _, _ => .error .typeError
  | .or_ =>
    match a, b with
    | .bool x, .bool y => .ok (.bool (x || y))
    | _, _ => .error .typeError

/-- The `Button` entity from `ui/orm_views.py`: `custom_id` and the integer
field `f`, exposed through the `custom_id` and `foo` selectors. -/
structure Button where
  custom_id : String
  f : Int
  deriving DecidableEq, Repr

/-- `getattr(value, attribute)` on a `Button`: the `Selector` descriptors
return the wrapped attribute value. -/
def Button.getattr (e : Button) (attr : String) : Except PyErr PyVal :=
  if attr = "custom_id" then .ok (.str e.custom_id)
  else if attr = "foo" then .ok (.int e.f)
  else .error .attributeError

/-- `Operator.get(value)`: resolve each operand (nested `Operator`s
recursively, `Selector`s via attribute lookup, literals to themselves), then
apply the stored function `self.func(r_val, l_val)`. -/
def OpTree.eval (t : OpTree) (e : Button) : Except PyErr PyVal :=
  match t with
  | .selector attr => e.getattr attr
  | .lit v => .ok v
  | .node f r l => do
    let rv ← r.eval e
    let lv ← l.eval e
    applyFunc f rv lv

/-- The boolean result of `Operator.get`; the top level of a predicate always
is an `Operator` node, whose `func` returns a bool. -/
def OpTree.getB (t : OpTree) (e : Button) : Except PyErr Bool := do
  match ← t.eval e with
  | .bool b => pure b
  | _ => .error .typeError

/-- `Selector.__eq__(other)` builds `Operator(op.eq, self, other)`: the
selector is stored as the `right` operand, the other value as `left`. -/
def Selector.eqOp (attr : String) (other : PyVal) : OpTree :=
  .node .eq (.selector attr) (.lit other)

/-- `Selector.__gt__`. -/
def Selector.gtOp (attr : String) (other : PyVal) : OpTree :=
  .node .gt (.selector attr) (.lit other)

/-- `Selector.__ge__`. -/
def Selector.geOp (attr : String) (other : PyVal) : OpTree :=
  .node .ge (.selector attr) (.lit other)

/-- `Selector.__lt__`. -/
def Selector.ltOp (attr : String) (other : PyVal) : OpTree :=
  .node .lt (.selector attr) (.lit other)

/-- `Selector.__le__`. -/
def Selector.leOp (attr : String) (other : PyVal) : OpTree :=
  .node .le (.selector attr) (.lit other)

/-- `Operator` defines neither `__bool__` nor `__len__`, so CPython's default
object truthiness applies: every `Operator` instance is truthy. -/
def operatorTruthy (_ : OpTree) : Bool := true

/-- How CPython evaluates the chained comparison `lo <= Button.foo <= hi`
(line 227 of `ui/orm_views.py`): it means
`(lo <= Button.foo) and (Button.foo <= hi)`.  `int.__le__(lo, Selector)`
returns `NotImplemented`, so the reflected `Selector.__ge__(lo)` builds the
first `Operator`; `and` then tests that operator's truthiness (always true)
and discards it, yielding only the second comparison's `Operator`. -/
def chainedLeLe (lo : Int) (attr : String) (hi : Int) : OpTree :=
  let first := Selector.geOp attr (.int lo)
  if operatorTruthy first then Selector.leOp attr (.int hi) else first

/-- `Manager.find(pred)`: the first entity satisfying the predicate, if any
(evaluation errors propagate). -/
def Manager.find (items : List Button) (pred : OpTree) : Except PyErr (Option Button) :=
  match items with
  | [] => .ok none
  | item :: rest => do
    if ← pred.getB item then pure (some item) else Manager.find rest pred

/-- `Manager.find_all(pred)`: every entity satisfying the predicate, in the
original order. -/
def Manager.find_all (items : List Button) (pred : OpTree) : Except PyErr (List Button) :=
  match items with
  | [] => .ok []
  | item :: rest => do
    if ← pred.getB item then
      let rest' ← Manager.find_all rest pred
      pure (item :: rest')
    else
      Manager.find_all rest pred

end Orm

/-! # Theorems

First some reusable lemmas about the embedded operations, then one theorem
per claim of the specification review, in claim order. -/

namespace ArenaBuffs

/-- A non-negative index within bounds reads the list entry directly. -/
theorem pyIndex_of_nonneg (xs : List Int) (i : Int) (h0 : 0 ≤ i) (h1 : i.toNat < xs.length) :
    pyIndex xs i = .ok (xs.getD i.toNat 0) := by
  unfold pyIndex
  have hneg : ¬ i < 0 := by omega
  simp only [hneg, if_false]
  rw [dif_pos ⟨h0, h1⟩]
  simp [List.getD_eq_getElem?_getD, List.getElem?_eq_getElem h1]

/-- A negative index within one length of the end wraps to `i + length`. -/
theorem pyIndex_of_neg (xs : List Int) (i : Int) (h0 : i < 0) (h1 : -(xs.length : Int) ≤ i) :
    pyIndex xs i = pyIndex xs (i + xs.length) := by
  unfold pyIndex
  have h2 : ¬ (i + (xs.length : Int)) < 0 := by omega
  simp only [h0, if_true, h2, if_false]

/-- An index at or past the length, or below `-length`, raises `IndexError`. -/
theorem pyIndex_out_of_range (xs : List Int) (i : Int)
    (h : (xs.length : Int) ≤ i ∨ i < -(xs.length : Int)) :
    pyIndex xs i = .error .indexError := by
  unfold pyIndex
  have hlen : (0 : Int) ≤ (xs.length : Int) := Int.ofNat_nonneg _
  rcases h with h | h
  · have hneg : ¬ i < 0 := by omega
    simp only [hneg, if_false]
    rw [dif_neg]
    rintro ⟨ha, hb⟩
    omega
  · have hneg : i < 0 := by omega
    simp only [hneg, if_true]
    rw [dif_neg]
    rintro ⟨ha, hb⟩
    omega

end ArenaBuffs

/-- Inversion for a successful `Except` bind: both stages succeeded. -/
theorem exceptBind_ok {ε α β : Type} {x : Except ε α} {f : α → Except ε β} {b : β}
    (h : x >>= f = .ok b) : ∃ a, x = .ok a ∧ f a = .ok b := by
  cases x with
  | error e => simp [bind, Except.bind] at h
  | ok a => exact ⟨a, rfl, h⟩

namespace ArenaBuffs

/-- C1: For every recognized stat and every level inside the curve bounds,
the buff engine follows the per-stat rules: for `"health"`, `total_buff`
returns `baseValue + HP_INCREASES[level]` and `get_percent` raises
`TypeError`; for `"backfire"`, the percent is `-BASE_PERCENT[level]`; for
`"expRes"`/`"eleRes"`/`"phyRes"` it is `2 * BASE_PERCENT[level]`; for every
other recognized stat it is `BASE_PERCENT[level]`; and for every non-health
stat `total_buff` rounds `baseValue * (1 + percent/100)` with one consistent
rounding rule (`pyRound`, banker's rounding on the exact rational). -/
theorem claim_buff_per_stat_rules
    (stat : String) (hstat : stat ∈ STATS_REFERENCE) (level : Int)
    (levels : Levels) (value : Int)
    (hlo : 0 ≤ level)
    (hhi : level < if stat = "health" then (HP_INCREASES.length : Int)
      else (BASE_PERCENT.length : Int))
    (hlev : lookupLevel levels stat = some level) :
    (stat = "health" →
      total_buff levels stat value = .ok (value + HP_INCREASES.getD level.toNat 0) ∧
      get_percent stat level = .error .typeError) ∧
    (stat = "backfire" →
      get_percent stat level = .ok (-(BASE_PERCENT.getD level.toNat 0))) ∧
    (stat = "expRes" ∨ stat = "eleRes" ∨ stat = "phyRes" →
      get_percent stat level = .ok (BASE_PERCENT.getD level.toNat 0 * 2)) ∧
    (stat ≠ "health" → stat ≠ "backfire" →
      ¬(stat = "expRes" ∨ stat = "eleRes" ∨ stat = "phyRes") →
      get_percent stat level = .ok (BASE_PERCENT.getD level.toNat 0)) ∧
    (∀ p, stat ≠ "health" → get_percent stat level = .ok p →
      total_buff levels stat value = .ok (pyRound (mkRat (value * (100 + p)) 100))) := by
  have hBlen : BASE_PERCENT.length = 11 := rfl
  have hHlen : HP_INCREASES.length = 12 := rfl
  refine ⟨?_, ?_, ?_, ?_, ?_⟩
  · intro hh
    subst hh
    rw [if_pos rfl] at hhi
    constructor
    · unfold total_buff
      rw [hlev]
      simp only [if_pos rfl]
      rw [pyIndex_of_nonneg _ _ hlo (by omega)]
      rfl
    · unfold get_percent
      rw [if_pos rfl]
  · intro hb
    subst hb
    rw [if_neg (by decide)] at hhi
    unfold get_percent
    rw [if_neg (by decide), if_pos rfl, pyIndex_of_nonneg _ _ hlo (by omega)]
    rfl
  · intro hr
    have hnh : stat ≠ "health" := by rcases hr with h | h | h <;> subst h <;> decide
    have hnb : stat ≠ "backfire" := by rcases hr with h | h | h <;> subst h <;> decide
    rw [if_neg hnh] at hhi
    unfold get_percent
    rw [if_neg hnh, if_neg hnb, if_pos hr, pyIndex_of_nonneg _ _ hlo (by omega)]
    rfl
  · intro hnh hnb hnr
    rw [if_neg hnh] at hhi
    unfold get_percent
    rw [if_neg hnh, if_neg hnb, if_neg hnr, pyIndex_of_nonneg _ _ hlo (by omega)]
  · intro p hnh hp
    unfold total_buff
    rw [hlev]
    simp only [if_neg hnh]
    rw [hp]
    rfl

/-- Witness for C1: the claim's concrete scenarios, derived by applying
`claim_buff_per_stat_rules` to `"expRes"` at level 2, base 50, alongside the
`"eneCap"` level 3 base 100 scenario. -/
theorem claim_buff_per_stat_rules_witness :
    total_buff [("eneCap", 3)] "eneCap" 100 = .ok 105 ∧
    total_buff [("expRes", 2)] "expRes" 50 = .ok 53 ∧
    get_percent "expRes" 2 = .ok 6 := by
  refine ⟨by decide, ?_, ?_⟩
  · have h := claim_buff_per_stat_rules "expRes" (by decide) 2 [("expRes", 2)] 50
      (by decide) (by decide) (by decide)
    have h6 : get_percent "expRes" 2 = .ok 6 := by
      have := h.2.2.1 (Or.inl rfl)
      rw [this]
      rfl
    have := h.2.2.2.2 6 (by decide) h6
    rw [this]
    decide
  · have h := claim_buff_per_stat_rules "expRes" (by decide) 2 [("expRes", 2)] 50
      (by decide) (by decide) (by decide)
    have := h.2.2.1 (Or.inl rfl)
    rw [this]
    rfl

/-- C2 is refuted: a negative buff level within one curve length of zero does
not raise `IndexError`; Python's negative indexing reads the table from the
end, so level `-1` yields the percent of level 10 and `total_buff` happily
buffs with it. -/
theorem claim_buff_level_bounds_counterexample :
    get_percent "eneCap" (-1) = .ok 20 ∧
    total_buff [("eneCap", -1)] "eneCap" 100 = .ok 120 := by decide

/-- C2 amended: levels at or past the curve length, or below minus the curve
length, raise `IndexError` from `get_percent` and `total_buff` (the health
curve applying to `"health"`); but a negative level within one curve length
of zero follows Python negative indexing and behaves like `level + len`;
`get_percent("health", _)` raises `TypeError` regardless of the level. -/
theorem claim_buff_level_bounds_amended
    (stat : String) (level : Int) (levels : Levels) (value : Int) :
    (stat ≠ "health" →
      ((BASE_PERCENT.length : Int) ≤ level ∨ level < -(BASE_PERCENT.length : Int)) →
      get_percent stat level = .error .indexError) ∧
    (stat ≠ "health" → lookupLevel levels stat = some level →
      ((BASE_PERCENT.length : Int) ≤ level ∨ level < -(BASE_PERCENT.length : Int)) →
      total_buff levels stat value = .error .indexError) ∧
    (lookupLevel levels "health" = some level →
      ((HP_INCREASES.length : Int) ≤ level ∨ level < -(HP_INCREASES.length : Int)) →
      total_buff levels "health" value = .error .indexError) ∧
    (stat ≠ "health" → -(BASE_PERCENT.length : Int) ≤ level → level < 0 →
      get_percent stat level = get_percent stat (level + BASE_PERCENT.length)) ∧
    get_percent "health" level = .error .typeError := by
  have herr : ∀ s, s ≠ "health" →
      ((BASE_PERCENT.length : Int) ≤ level ∨ level < -(BASE_PERCENT.length : Int)) →
      get_percent s level = .error .indexError := by
    intro s hnh h
    unfold get_percent
    rw [if_neg hnh, pyIndex_out_of_range _ _ h]
    by_cases hb : s = "backfire"
    · rw [if_pos hb]
      rfl
    · rw [if_neg hb]
      by_cases hr : s = "expRes" ∨ s = "eleRes" ∨ s = "phyRes"
      · rw [if_pos hr]
        rfl
      · rw [if_neg hr]
  refine ⟨herr stat, ?_, ?_, ?_, ?_⟩
  · intro hnh hlev h
    unfold total_buff
    rw [hlev]
    simp only [if_neg hnh]
    rw [herr stat hnh h]
    rfl
  · intro hlev h
    unfold total_buff
    rw [hlev]
    simp only [if_pos rfl]
    rw [pyIndex_out_of_range _ _ h]
    rfl
  · intro hnh h0 h1
    have hw := pyIndex_of_neg BASE_PERCENT level h1 h0
    unfold get_percent
    simp only [if_neg hnh, hw]
  · unfold get_percent
    rw [if_pos rfl]

/-- Witness for C2's amendment: level 11 raises past the end, level 12 for
health likewise, and level `-5` reads the table like level 6 does. -/
theorem claim_buff_level_bounds_amended_witness :
    get_percent "eneCap" 11 = .error .indexError ∧
    total_buff [("health", 12)] "health" 5 = .error .indexError ∧
    get_percent "eneCap" (-5) = get_percent "eneCap" 6 := by
  refine ⟨?_, ?_, ?_⟩
  · exact (claim_buff_level_bounds_amended "eneCap" 11 [] 0).1 (by decide)
      (Or.inl (by decide))
  · exact (claim_buff_level_bounds_amended "x" 12 [("health", 12)] 5).2.2.1 (by decide)
      (Or.inl (by decide))
  · have h := (claim_buff_level_bounds_amended "eneCap" (-5) [] 0).2.2.2.1 (by decide)
      (by decide) (by decide)
    simpa using h

/-- C9: a stat name absent from the buff-levels mapping passes through
`total_buff` unchanged, with no error, for every base value. -/
theorem claim_unbuffable_passthrough (levels : Levels) (stat : String) (value : Int)
    (h : lookupLevel levels stat = none) :
    total_buff levels stat value = .ok value := by
  unfold total_buff
  rw [h]

/-- Witness for C9: `"weight"` is not a buffable stat. -/
theorem claim_unbuffable_passthrough_witness :
    total_buff [("eneCap", 5)] "weight" 42 = .ok 42 :=
  claim_unbuffable_passthrough [("eneCap", 5)] "weight" 42 (by decide)

/-- C10 is refuted: `buff_stats` asserts that a `"health"` value is a plain
int when `buff_health` is false; a min-max pair under `"health"` trips the
assertion instead of being copied unchanged. -/
theorem claim_health_unbuffed_counterexample :
    buff_stats [("health", 5)] [("health", .list [10, 20])] false
      = .error .assertionError := by decide

/-- C10 amended: for every stats bag whose `"health"` entry holds a single
integer (the only shape the source's assertion admits), `buff_stats` with
`buff_health = false` copies that entry unchanged, at its original position. -/
theorem claim_health_unbuffed_amended (levels : Levels) (stats : StatsBag)
    (res : StatsBag) (h : buff_stats levels stats false = .ok res) :
    ∀ i v, stats.get? i = some ("health", .int v) → res.get? i = some ("health", .int v) := by
  induction stats generalizing res with
  | nil =>
    intro i v hi
    simp at hi
  | cons p rest ih =>
    obtain ⟨key, value⟩ := p
    intro i v hi
    rw [buff_stats.eq_def] at h
    simp only [] at h
    by_cases hkey : key = "health"
    · subst hkey
      rw [if_pos ⟨rfl, trivial⟩] at h
      cases value with
      | int w =>
        obtain ⟨entry, hE, h⟩ := exceptBind_ok h
        obtain ⟨rest', hR, h⟩ := exceptBind_ok h
        simp only [pure, Except.pure, Except.ok.injEq] at h hE
        subst h
        cases i with
        | zero =>
          simp only [List.get?] at hi ⊢
          injection hi with hi
          rw [← hE, ← hi]
        | succ n =>
          simp only [List.get?] at hi ⊢
          exact ih rest' hR n v hi
      | list vs =>
        obtain ⟨entry, hE, h⟩ := exceptBind_ok h
        simp at hE
    · rw [if_neg (fun hc => hkey hc.1)] at h
      cases value with
      | int w =>
        obtain ⟨w', hw, h⟩ := exceptBind_ok h
        obtain ⟨entry, hE, h⟩ := exceptBind_ok h
        obtain ⟨rest', hR, h⟩ := exceptBind_ok h
        simp only [pure, Except.pure, Except.ok.injEq] at h hE
        subst h
        cases i with
        | zero =>
          simp only [List.get?] at hi
          injection hi with hi
          injection hi with hk hv
          exact absurd hk hkey
        | succ n =>
          simp only [List.get?] at hi ⊢
          exact ih rest' hR n v hi
      | list vs =>
        obtain ⟨vs', hvs, h⟩ := exceptBind_ok h
        obtain ⟨entry, hE, h⟩ := exceptBind_ok h
        obtain ⟨rest', hR, h⟩ := exceptBind_ok h
        simp only [pure, Except.pure, Except.ok.injEq] at h hE
        subst h
        cases i with
        | zero =>
          simp only [List.get?] at hi
          injection hi with hi
          injection hi with hk hv
          exact absurd hk hkey
        | succ n =>
          simp only [List.get?] at hi ⊢
          exact ih rest' hR n v hi

/-- Witness for C10's amendment at a concrete bag. -/
theorem claim_health_unbuffed_amended_witness :
    buff_stats [("health", 3), ("eneCap", 3)] [("health", .int 100), ("eneCap", .int 100)] false
      = .ok [("health", .int 100), ("eneCap", .int 105)] ∧
    [(("health" : String), StatValue.int 100), ("eneCap", .int 105)].get? 0
      = some ("health", .int 100) := by
  constructor
  · decide
  · exact claim_health_unbuffed_amended [("health", 3), ("eneCap", 3)]
      [("health", .int 100), ("eneCap", .int 100)]
      [("health", .int 100), ("eneCap", .int 105)] (by decide) 0 100 (by decide)

end ArenaBuffs

namespace Orm

/-- C3: For the manager holding `A(f=0), B(f=1), C(f=2)` in that order,
`find_all` on the predicate built from the chained expression
`0 <= Selector.f <= 1` returns exactly `[A, B]` in original order, and `find`
on `Selector.f == 5` returns `None`.  (Under CPython chaining semantics the
chained expression builds the predicate `f <= 1`, which `[A, B]` satisfies.) -/
theorem claim_predicate_engine_scenario :
    Manager.find_all [⟨"A", 0⟩, ⟨"B", 1⟩, ⟨"C", 2⟩] (chainedLeLe 0 "foo" 1)
      = .ok [⟨"A", 0⟩, ⟨"B", 1⟩] ∧
    Manager.find [⟨"A", 0⟩, ⟨"B", 1⟩, ⟨"C", 2⟩] (Selector.eqOp "foo" (.int 5))
      = .ok none := by
  constructor <;> rfl

/-- C4: the predicate tree built from the chained expression
`lo <= Selector.f <= hi` is exactly the tree built from `Selector.f <= hi`
alone: the first comparison's `Operator` is always truthy (no `__bool__`), so
`and` discards it and the lower bound never enters the tree; consequently
both predicates evaluate identically on every entity, and an entity with
`f = -5` also matches `0 <= Selector.f <= 1`. -/
theorem claim_chained_comparison_drops_lower_bound :
    (∀ (lo : Int) (attr : String) (hi : Int),
      chainedLeLe lo attr hi = Selector.leOp attr (.int hi)) ∧
    (∀ (lo hi : Int) (e : Button),
      (chainedLeLe lo "foo" hi).getB e = (Selector.leOp "foo" (.int hi)).getB e) ∧
    (chainedLeLe 0 "foo" 1).getB ⟨"x", -5⟩ = .ok true := by
  refine ⟨fun lo attr hi => rfl, fun lo hi e => rfl, rfl⟩

end Orm

namespace Core

/-- Membership in `setAdd` comes from the old set or is the added element. -/
theorem setAdd_mem {s : List String} {x m : String} (h : m ∈ setAdd s x) : m ∈ s ∨ m = x := by
  unfold setAdd at h
  by_cases hx : x ∈ s
  · rw [if_pos hx] at h
    exact Or.inl h
  · rw [if_neg hx] at h
    rcases List.mem_append.mp h with h | h
    · exact Or.inl h
    · exact Or.inr (List.mem_singleton.mp h)

/-- A member of a set in `dictSetdefaultAdd d key nm` was already in a set of
`d`, or is the freshly registered name `nm`. -/
theorem dictSetdefaultAdd_mem {d : List (String × List String)} {key nm k' : String}
    {s' : List String} {m : String}
    (h : (k', s') ∈ dictSetdefaultAdd d key nm) (hm : m ∈ s') :
    (∃ s₀, (k', s₀) ∈ d ∧ m ∈ s₀) ∨ m = nm := by
  induction d with
  | nil =>
    simp only [dictSetdefaultAdd, List.mem_singleton] at h
    injection h with h1 h2
    subst h2
    exact Or.inr (List.mem_singleton.mp hm)
  | cons p rest ih =>
    obtain ⟨k₀, s₀⟩ := p
    simp only [dictSetdefaultAdd] at h
    by_cases hk : k₀ = key
    · rw [if_pos hk] at h
      rcases List.mem_cons.mp h with he | hrest
      · injection he with h1 h2
        subst h1
        subst h2
        rcases setAdd_mem hm with h | h
        · exact Or.inl ⟨s₀, List.mem_cons_self _ _, h⟩
        · exact Or.inr h
      · exact Or.inl ⟨s', List.mem_cons_of_mem _ hrest, hm⟩
    · rw [if_neg hk] at h
      rcases List.mem_cons.mp h with he | hrest
      · injection he with h1 h2
        subst h1
        subst h2
        exact Or.inl ⟨s', List.mem_cons_self _ _, hm⟩
      · rcases ih hrest with ⟨s₁, hs₁, hms₁⟩ | h
        · exact Or.inl ⟨s₁, List.mem_cons_of_mem _ hs₁, hms₁⟩
        · exact Or.inr h

/-- Registering the aliases of one abbreviated name preserves the invariant
that every set member has a non-`None` abbreviation. -/
theorem aliasFold_invariant (nm : String) (hnm : abbreviate_name nm ≠ none)
    (aliases : List String) (d : List (String × List String))
    (hd : ∀ k s, (k, s) ∈ d → ∀ m ∈ s, abbreviate_name m ≠ none) :
    ∀ k s, (k, s) ∈ aliases.foldl (fun d k => dictSetdefaultAdd d k nm) d →
      ∀ m ∈ s, abbreviate_name m ≠ none := by
  induction aliases generalizing d with
  | nil => exact hd
  | cons a as ih =>
    refine ih (dictSetdefaultAdd d a nm) ?_
    intro k s hks m hm
    rcases dictSetdefaultAdd_mem hks hm with ⟨s₀, hs₀, hms₀⟩ | h
    · exact hd k s₀ hs₀ m hms₀
    · rw [h]
      exact hnm

/-- Every name stored in any set of the abbreviation index has a non-`None`
primary abbreviation: skipped names are never registered. -/
theorem abbreviate_names_mem {names : List String} {k : String} {s : List String}
    (h : (k, s) ∈ abbreviate_names names) : ∀ m ∈ s, abbreviate_name m ≠ none := by
  unfold abbreviate_names at h
  suffices hgen : ∀ (d : List (String × List String)),
      (∀ k' s', (k', s') ∈ d → ∀ m ∈ s', abbreviate_name m ≠ none) →
      ∀ k' s', (k', s') ∈ names.foldl
        (fun d name =>
          match abbreviate_name name with
          | none => d
          | some abb => (abbrevAliases name abb).foldl (fun d k => dictSetdefaultAdd d k name) d)
        d →
      ∀ m ∈ s', abbreviate_name m ≠ none by
    exact hgen [] (by simp) k s h
  clear h
  induction names with
  | nil => intro d hd; exact hd
  | cons n ns ih =>
    intro d hd
    simp only [List.foldl_cons]
    apply ih
    cases habb : abbreviate_name n with
    | none => simpa [habb] using hd
    | some abb =>
      simp only [habb]
      exact aliasFold_invariant n (by rw [habb]; exact Option.some_ne_none abb)
        (abbrevAliases n abb) d hd

/-- C6: a name that is entirely uppercase, or spaceless and title-cased, gets
no primary abbreviation (`abbreviate_name` returns `None`), and the index
builder registers no key whose name set contains it. -/
theorem claim_skipped_names_absent (name : String)
    (h : pyIsUpper name = true ∨ (name.data.contains ' ' = false ∧ pyIsTitle name = true)) :
    abbreviate_name name = none ∧
    ∀ (names : List String) (k : String) (s : List String),
      (k, s) ∈ abbreviate_names names → name ∉ s := by
  have habb : abbreviate_name name = none := by
    unfold abbreviate_name
    rw [if_pos]
    rcases h with h | ⟨h1, h2⟩
    · rw [h]
      rfl
    · rw [h1, h2]
      simp
  refine ⟨habb, ?_⟩
  intro names k s hks hmem
  exact abbreviate_names_mem hks name hmem habb

/-- Witness for C6: `"EMP"` (all uppercase) is skipped, hence absent from the
set stored under the key `"hm"` in the index of `["EMP", "HeronMark"]`. -/
theorem claim_skipped_names_absent_witness :
    abbreviate_name "EMP" = none ∧ "EMP" ∉ ["HeronMark"] := by
  have h := claim_skipped_names_absent "EMP" (Or.inl (by decide))
  exact ⟨h.1, h.2 ["EMP", "HeronMark"] "hm" ["HeronMark"] (by decide)⟩

/-- C5: when the lowercased query is an exact key of the abbreviation index
whose name set has more members than `limit`, the resolver raises the
ambiguity `ValueError` instead of truncating. -/
theorem claim_ambiguity_overflow {α : Type} (mapping : List (String × α)) (name : String)
    (abbrevs : List (String × List String)) (limit : Nat) (s : List String)
    (hlook : dictLookup abbrevs (pyLower name) = some s)
    (hover : limit < s.length) :
    get_matching_items mapping name abbrevs limit = .error .valueError := by
  unfold get_matching_items
  simp only [hlook]
  rw [if_pos hover]
  rfl

/-- Witness for C5: the claim's corpus — both names abbreviate to `"hhc"`, so
resolving `"hhc"` with limit 1 overflows. -/
theorem claim_ambiguity_overflow_witness :
    get_matching_items [("Hybrid Heat Cannon", 1), ("Hover Heli Copter", 2)] "hhc"
      (abbreviate_names ["Hybrid Heat Cannon", "Hover Heli Copter"]) 1
      = .error .valueError :=
  claim_ambiguity_overflow _ "hhc" _ 1 ["Hybrid Heat Cannon", "Hover Heli Copter"]
    (by decide) (by decide)

end Core
-- appended to main file for testing
namespace Core

/-- A successful dict lookup locates a stored binding. -/
theorem dictLookup_mem {α : Type} {d : List (String × α)} {key : String} {v : α}
    (h : dictLookup d key = some v) : (key, v) ∈ d := by
  unfold dictLookup at h
  cases hf : d.find? (fun p => p.1 = key) with
  | none => rw [hf] at h; cases h
  | some p =>
    rw [hf] at h
    injection h with h
    have hm := List.mem_of_find?_eq_some hf
    have hp := List.find?_some hf
    obtain ⟨k, v'⟩ := p
    simp only [decide_eq_true_eq] at hp
    cases h
    cases hp
    exact hm

/-- When every listed name resolves, the lookup loop succeeds and returns the
resolved entities in order. -/
theorem mapM_lookup_ok {α : Type} (mapping : List (String × α)) (ns : List String)
    (h : ∀ n ∈ ns, (dictLookup mapping n).isSome) :
    ns.mapM (lookupOrKeyError mapping) = .ok (ns.filterMap (dictLookup mapping)) := by
  induction ns with
  | nil => rfl
  | cons n ns ih =>
    have hn := h n (List.mem_cons_self _ _)
    cases hv : dictLookup mapping n with
    | none => rw [hv] at hn; cases hn
    | some v =>
      rw [List.mapM_cons]
      simp only [ih (fun m hm => h m (List.mem_cons_of_mem _ hm))]
      simp [lookupOrKeyError, bind, Except.bind, pure, Except.pure, List.filterMap_cons, hv]

/-- `insertDesc` permutes the inserted element into the list. -/
theorem insertDesc_perm {α : Type} (x : ℚ × α) (xs : List (ℚ × α)) :
    List.Perm (insertDesc x xs) (x :: xs) := by
  induction xs with
  | nil => exact List.Perm.refl _
  | cons y ys ih =>
    unfold insertDesc
    by_cases h : y.1 ≤ x.1
    · rw [if_pos h]
    · rw [if_neg h]
      exact (ih.cons y).trans (List.Perm.swap x y ys)

/-- `sortDesc` permutes its input. -/
theorem sortDesc_perm {α : Type} (xs : List (ℚ × α)) : List.Perm (sortDesc xs) xs := by
  induction xs with
  | nil => exact List.Perm.refl _
  | cons x xs ih =>
    exact (insertDesc_perm x (sortDesc xs)).trans (ih.cons x)

/-- `insertDesc` preserves the descending order. -/
theorem insertDesc_pairwise {α : Type} (x : ℚ × α) (xs : List (ℚ × α))
    (h : List.Pairwise (fun a b => b.1 ≤ a.1) xs) :
    List.Pairwise (fun a b => b.1 ≤ a.1) (insertDesc x xs) := by
  induction xs with
  | nil => simp [insertDesc]
  | cons y ys ih =>
    unfold insertDesc
    rcases List.pairwise_cons.mp h with ⟨hy, hys⟩
    by_cases hle : y.1 ≤ x.1
    · rw [if_pos hle]
      refine List.pairwise_cons.mpr ⟨?_, h⟩
      intro z hz
      rcases List.mem_cons.mp hz with rfl | hz
      · exact hle
      · exact le_trans (hy z hz) hle
    · rw [if_neg hle]
      refine List.pairwise_cons.mpr ⟨?_, ih hys⟩
      intro z hz
      rcases List.mem_cons.mp ((insertDesc_perm x ys).mem_iff.mp hz) with rfl | hz
      · exact le_of_lt (lt_of_not_le hle)
      · exact hy z hz

/-- `sortDesc` sorts descending by ratio. -/
theorem sortDesc_pairwise {α : Type} (xs : List (ℚ × α)) :
    List.Pairwise (fun a b => b.1 ≤ a.1) (sortDesc xs) := by
  induction xs with
  | nil => simp [sortDesc]
  | cons x xs ih => exact insertDesc_pairwise x (sortDesc xs) ih

/-- Every recorded fuzzy match passed the `0.6` cutoff, with its stored
ratio being the matcher's ratio of the lowercased names. -/
theorem fuzzyMatched_cutoff {α : Type} (mapping : List (String × α)) (nameL : Difflib.Chars) :
    ∀ p ∈ fuzzyMatched mapping nameL, mkRat 3 5 ≤ p.1 := by
  intro p hp
  unfold fuzzyMatched at hp
  obtain ⟨⟨iname, v⟩, hmem, hsome⟩ := List.mem_filterMap.mp hp
  by_cases hpred : matchPred (pyLower iname).data nameL
  · rw [if_pos hpred] at hsome
    injection hsome with hsome
    unfold matchPred at hpred
    have := (Bool.and_elim_right hpred)
    rw [← hsome]
    simpa using this
  · rw [if_neg hpred] at hsome
    cases hsome

end Core

namespace Core

/-- Closed form of the resolver when every name stored in the index resolves
in the corpus (true of an index built from the corpus's own names). -/
theorem get_matching_items_closed {α : Type} (mapping : List (String × α)) (name : String)
    (abbrevs : List (String × List String)) (limit : Nat)
    (hcons : ∀ p ∈ abbrevs, ∀ n ∈ p.2, (dictLookup mapping n).isSome) :
    get_matching_items mapping name abbrevs limit =
      match dictLookup abbrevs (pyLower name) with
      | some s =>
        if limit < s.length then .error .valueError
        else
          Except.ok
            (if (fuzzyMatched mapping (pyLower name).data).isEmpty then
              s.filterMap (dictLookup mapping)
            else
              s.filterMap (dictLookup mapping) ++
                (nlargest (limit - (s.filterMap (dictLookup mapping)).length)
                  (fuzzyMatched mapping (pyLower name).data)).map Prod.snd)
      | none =>
        Except.ok
          (if (fuzzyMatched mapping (pyLower name).data).isEmpty then []
          else (nlargest (limit - 0) (fuzzyMatched mapping (pyLower name).data)).map Prod.snd) := by
  unfold get_matching_items
  cases hlook : dictLookup abbrevs (pyLower name) with
  | none =>
    simp only [hlook]
    simp only [bind, Except.bind, pure, Except.pure]
    split <;> rfl
  | some s =>
    simp only [hlook]
    by_cases hlim : limit < s.length
    · simp [hlim, bind, Except.bind]
    · have hc : ∀ n ∈ s, (dictLookup mapping n).isSome := by
        intro n hn
        exact hcons (pyLower name, s) (dictLookup_mem hlook) n hn
      simp only [hlim, if_false]
      rw [mapM_lookup_ok mapping s hc]
      simp only [bind, Except.bind, pure, Except.pure]
      split <;> rfl

/-- C7: for every corpus, query, corpus-built index and limit on which the
resolver does not overflow, it returns at most `limit` entities: the exact
abbreviation matches first, followed by fuzzy matches each of ratio at least
`0.6`, in descending ratio order; the only possible error is the ambiguity
overflow, and nothing qualifying yields `.ok []`, not an error. -/
theorem claim_resolver_shape {α : Type} (mapping : List (String × α)) (name : String)
    (abbrevs : List (String × List String)) (limit : Nat)
    (hcons : ∀ p ∈ abbrevs, ∀ n ∈ p.2, (dictLookup mapping n).isSome) :
    (∀ e, get_matching_items mapping name abbrevs limit = .error e → e = .valueError) ∧
    (∀ res, get_matching_items mapping name abbrevs limit = .ok res →
      res.length ≤ limit ∧
      ∃ fuzzy : List (ℚ × α),
        res = ((dictLookup abbrevs (pyLower name)).getD []).filterMap (dictLookup mapping)
            ++ fuzzy.map Prod.snd ∧
        (∀ p ∈ fuzzy, mkRat 3 5 ≤ p.1 ∧ p ∈ fuzzyMatched mapping (pyLower name).data) ∧
        List.Pairwise (fun a b => b.1 ≤ a.1) fuzzy) ∧
    (dictLookup abbrevs (pyLower name) = none →
      fuzzyMatched mapping (pyLower name).data = [] →
      get_matching_items mapping name abbrevs limit = .ok []) := by
  rw [get_matching_items_closed mapping name abbrevs limit hcons]
  have hfuzz : ∀ (n : Nat) (p : ℚ × α),
      p ∈ nlargest n (fuzzyMatched mapping (pyLower name).data) →
      mkRat 3 5 ≤ p.1 ∧ p ∈ fuzzyMatched mapping (pyLower name).data := by
    intro n p hp
    have hmem : p ∈ fuzzyMatched mapping (pyLower name).data :=
      (sortDesc_perm _).mem_iff.mp ((List.take_sublist _ _).mem hp)
    exact ⟨fuzzyMatched_cutoff mapping _ p hmem, hmem⟩
  have hsorted : ∀ n : Nat, List.Pairwise (fun a b : ℚ × α => b.1 ≤ a.1)
      (nlargest n (fuzzyMatched mapping (pyLower name).data)) := by
    intro n
    exact (sortDesc_pairwise _).sublist (List.take_sublist _ _)
  cases hlook : dictLookup abbrevs (pyLower name) with
  | none =>
    simp only []
    refine ⟨?_, ?_, ?_⟩
    · intro e he
      cases he
    · intro res hres
      injection hres with hres
      subst hres
      by_cases hemp : (fuzzyMatched mapping (pyLower name).data).isEmpty
      · rw [if_pos hemp]
        refine ⟨by simp, [], by simp, by simp, by simp⟩
      · rw [if_neg hemp]
        constructor
        · simp only [List.length_map, if_neg hemp]
          calc (nlargest (limit - 0) (fuzzyMatched mapping (pyLower name).data)).length
              ≤ limit - 0 := by
                unfold nlargest
                exact (List.length_take _ _).trans_le (Nat.min_le_left _ _)
            _ ≤ limit := by omega
        · refine ⟨nlargest (limit - 0) (fuzzyMatched mapping (pyLower name).data), ?_, ?_, ?_⟩
          · simp [hemp]
          · exact hfuzz _
          · exact hsorted _
    · intro _ hemp
      simp [hemp]
  | some s =>
    simp only []
    by_cases hlim : limit < s.length
    · rw [if_pos hlim]
      refine ⟨?_, ?_, ?_⟩
      · intro e he
        injection he with he
        exact he.symm
      · intro res hres
        cases hres
      · intro hnone
        cases hnone
    · rw [if_neg hlim]
      refine ⟨?_, ?_, ?_⟩
      · intro e he
        cases he
      · intro res hres
        injection hres with hres
        subst hres
        have hitems : (s.filterMap (dictLookup mapping)).length ≤ limit :=
          le_trans (List.length_filterMap_le _ _) (by omega)
        by_cases hemp : (fuzzyMatched mapping (pyLower name).data).isEmpty
        · rw [if_pos hemp]
          refine ⟨hitems, [], by simp, by simp, by simp⟩
        · rw [if_neg hemp]
          constructor
          · simp only [List.length_append, List.length_map, if_neg hemp]
            have htake : (nlargest (limit - (s.filterMap (dictLookup mapping)).length)
                (fuzzyMatched mapping (pyLower name).data)).length
                ≤ limit - (s.filterMap (dictLookup mapping)).length := by
              unfold nlargest
              exact (List.length_take _ _).trans_le (Nat.min_le_left _ _)
            omega
          · refine ⟨nlargest (limit - (s.filterMap (dictLookup mapping)).length)
              (fuzzyMatched mapping (pyLower name).data), by simp [hemp], hfuzz _, hsorted _⟩
      · intro hnone
        cases hnone

/-- Witness for C7: a query matching nothing in a one-item corpus resolves to
the empty list without an error. -/
theorem claim_resolver_shape_witness :
    get_matching_items [("Hybrid Heat Cannon", 1)] "zzz"
      (abbreviate_names ["Hybrid Heat Cannon"]) 25 = .ok [] := by
  have h := claim_resolver_shape [("Hybrid Heat Cannon", 1)] "zzz"
    (abbreviate_names ["Hybrid Heat Cannon"]) 25 (by decide)
  exact h.2.2 (by decide) (by decide)

end Core
namespace Difflib

/-- A chain cannot reach below `lo`: its length is at most `i + 1 - lo`. -/
theorem chainLen_le (a : Chars) (anc : Char → Bool) (lo : Nat) :
    ∀ i j, chainLen a anc lo i j ≤ i + 1 - lo := by
  intro i
  induction i using Nat.strong_induction_on with
  | _ i ih =>
    intro j
    rw [chainLen]
    split
    · next hc =>
      split
      · next h =>
        have := ih (i - 1) (by omega) (j - 1)
        omega
      · next h =>
        omega
    · omega

/-- The chain value is symmetric in its two positions. -/
theorem chainLen_symm (a : Chars) (anc : Char → Bool) (lo : Nat) :
    ∀ i j, chainLen a anc lo i j = chainLen a anc lo j i := by
  intro i
  induction i using Nat.strong_induction_on with
  | _ i ih =>
    intro j
    conv_lhs => rw [chainLen]
    conv_rhs => rw [chainLen]
    by_cases hc : lo ≤ i ∧ lo ≤ j ∧ getC a i = getC a j ∧ anc (getC a j) = true
    · obtain ⟨h1, h2, h3, h4⟩ := hc
      rw [if_pos ⟨h1, h2, h3, h4⟩, if_pos ⟨h2, h1, h3.symm, h3 ▸ h4⟩]
      by_cases h : lo < i ∧ lo < j
      · rw [dif_pos h, dif_pos ⟨h.2, h.1⟩, ih (i - 1) (by omega) (j - 1)]
      · rw [dif_neg h, dif_neg (fun hx => h ⟨hx.2, hx.1⟩)]
    · rw [if_neg hc, if_neg ?hsym]
      case hsym =>
        intro ⟨h1, h2, h3, h4⟩
        exact hc ⟨h2, h1, h3.symm, h3 ▸ h4⟩

/-- A chain ending at `(i, j)` is no longer than the diagonal chain at
`(j, j)`: with equal sequences the matched factor also sits at `j` itself. -/
theorem chainLen_le_diag (a : Chars) (anc : Char → Bool) (lo : Nat) :
    ∀ j i, chainLen a anc lo i j ≤ chainLen a anc lo j j := by
  intro j
  induction j using Nat.strong_induction_on with
  | _ j ih =>
    intro i
    rw [chainLen]
    split
    · next hc =>
      obtain ⟨h1, h2, h3, h4⟩ := hc
      have hrhs : chainLen a anc lo j j =
          1 + (if lo < j ∧ lo < j then chainLen a anc lo (j - 1) (j - 1) else 0) := by
        conv_lhs => rw [chainLen]
        rw [if_pos ⟨h2, h2, rfl, h4⟩]
        split <;> rfl
      rw [hrhs]
      split
      · next h =>
        have h' : lo < j ∧ lo < j := ⟨h.2, h.2⟩
        rw [if_pos h']
        have := ih (j - 1) (by omega) (i - 1)
        omega
      · next h =>
        split <;> omega
    · exact Nat.zero_le _

end Difflib
namespace Difflib

/-- On a strictly ascending list, `takeWhile (< hi)` keeps exactly the
members below `hi` (the scan's early `break` is sound). -/
theorem mem_takeWhile_lt {l : List Nat} (hi : Nat) (hl : List.Pairwise (· < ·) l) (j : Nat) :
    j ∈ l.takeWhile (fun x => x < hi) ↔ j ∈ l ∧ j < hi := by
  induction l with
  | nil => simp
  | cons x xs ih =>
    rcases List.pairwise_cons.mp hl with ⟨hx, hxs⟩
    rw [List.takeWhile_cons]
    by_cases hxh : x < hi
    · rw [if_pos (decide_eq_true hxh)]
      rw [List.mem_cons, List.mem_cons, ih hxs]
      constructor
      · rintro (rfl | ⟨hj, hjh⟩)
        · exact ⟨Or.inl rfl, hxh⟩
        · exact ⟨Or.inr hj, hjh⟩
      · rintro ⟨rfl | hj, hjh⟩
        · exact Or.inl rfl
        · exact Or.inr ⟨hj, hjh⟩
    · rw [if_neg (fun hc => hxh (of_decide_eq_true hc))]
      simp only [List.not_mem_nil, false_iff]
      rintro ⟨hj, hjh⟩
      rcases List.mem_cons.mp hj with rfl | hj
      · exact hxh hjh
      · exact hxh (lt_trans (hx j hj) hjh)

/-- The position lists stored in `b2j` are strictly ascending. -/
theorem b2j_pairwise (a : Chars) (c : Char) : List.Pairwise (· < ·) (b2j a c) := by
  unfold b2j
  split
  · exact (List.pairwise_lt_range _).filter _
  · exact List.Pairwise.nil

/-- Membership in a `b2j` entry. -/
theorem mem_b2j (a : Chars) (c : Char) (j : Nat) :
    j ∈ b2j a c ↔ (anchored a c = true ∧ j < a.length ∧ getC a j = c) := by
  unfold b2j
  by_cases h : anchored a c = true
  · rw [if_pos h]
    simp only [List.mem_filter, List.mem_range, h, true_and, decide_eq_true_eq]
  · rw [if_neg h]
    simp only [List.not_mem_nil, false_iff]
    rintro ⟨hc, _⟩
    exact h hc

/-- The processed position list of one outer row, characterised. -/
theorem mem_js (a : Chars) (lo hi : Nat) (hhi : hi ≤ a.length) (c : Char) (j : Nat) :
    j ∈ ((b2j a c).takeWhile (fun j => j < hi)).filter (fun j => lo ≤ j) ↔
      (anchored a c = true ∧ lo ≤ j ∧ j < hi ∧ getC a j = c) := by
  rw [List.mem_filter, mem_takeWhile_lt hi (b2j_pairwise a c), mem_b2j]
  constructor
  · rintro ⟨⟨⟨hanc, _, hc⟩, hjhi⟩, hjlo⟩
    exact ⟨hanc, of_decide_eq_true hjlo, hjhi, hc⟩
  · rintro ⟨hanc, hjlo, hjhi, hc⟩
    exact ⟨⟨⟨hanc, lt_of_lt_of_le hjhi hhi, hc⟩, hjhi⟩, decide_eq_true hjlo⟩

/-- The processed position list of one outer row is strictly ascending. -/
theorem js_pairwise (a : Chars) (lo hi : Nat) (c : Char) :
    List.Pairwise (· < ·) (((b2j a c).takeWhile (fun j => j < hi)).filter (fun j => lo ≤ j)) :=
  (((b2j_pairwise a c).sublist (List.takeWhile_sublist _)).filter _)

end Difflib
namespace Difflib

/-- One row of the scan on equal sequences: the row values computed are the
`chainLen` chain values, the running best stays on the diagonal (strict
improvements only happen at the row's diagonal cell), its bounds are kept,
and after the row the best dominates the row's diagonal chain value. -/
theorem dpProcessJ_diag (a : Chars) (lo hi : Nat) (i : Nat)
    (hloi : lo ≤ i) (hihi : i < hi)
    (j2len : Nat → Nat)
    (hj2 : ∀ j, j2len j =
      if lo < i ∧ j < hi then chainLen a (anchored a) lo (i - 1) j else 0) :
    ∀ (js : List Nat) (newj2len : Nat → Nat) (best : Match3),
      (∀ j ∈ js, lo ≤ j ∧ j < hi ∧ getC a j = getC a i ∧ anchored a (getC a i) = true) →
      List.Pairwise (· < ·) js →
      (i ∈ js ∨ chainLen a (anchored a) lo i i ≤ best.bestk) →
      best.besti = best.bestj →
      (best.bestk = 0 → best.besti = lo) →
      (∀ d, lo ≤ d → d < i → chainLen a (anchored a) lo d d ≤ best.bestk) →
      lo ≤ best.besti →
      best.besti + best.bestk ≤ hi →
      (∀ j, newj2len j =
        if lo ≤ j ∧ j < hi ∧ getC a j = getC a i ∧ anchored a (getC a i) = true ∧ j ∉ js
        then chainLen a (anchored a) lo i j else 0) →
      (∀ j, (dpProcessJ j2len i js newj2len best).1 j =
        if lo ≤ j ∧ j < hi ∧ getC a j = getC a i ∧ anchored a (getC a i) = true
        then chainLen a (anchored a) lo i j else 0) ∧
      (dpProcessJ j2len i js newj2len best).2.besti
        = (dpProcessJ j2len i js newj2len best).2.bestj ∧
      ((dpProcessJ j2len i js newj2len best).2.bestk = 0 →
        (dpProcessJ j2len i js newj2len best).2.besti = lo) ∧
      (∀ d, lo ≤ d → d < i →
        chainLen a (anchored a) lo d d ≤ (dpProcessJ j2len i js newj2len best).2.bestk) ∧
      lo ≤ (dpProcessJ j2len i js newj2len best).2.besti ∧
      (dpProcessJ j2len i js newj2len best).2.besti
        + (dpProcessJ j2len i js newj2len best).2.bestk ≤ hi ∧
      best.bestk ≤ (dpProcessJ j2len i js newj2len best).2.bestk ∧
      chainLen a (anchored a) lo i i ≤ (dpProcessJ j2len i js newj2len best).2.bestk := by
  intro js
  induction js with
  | nil =>
    intro newj2len best hsound hsort hicur hdiag hzero hball hblo hbhi hnew
    refine ⟨?_, hdiag, hzero, hball, hblo, hbhi, le_refl _, ?_⟩
    · intro j
      rw [dpProcessJ]
      show newj2len j = _
      rw [hnew j]
      simp only [List.not_mem_nil, not_false_iff, and_true]
    · rcases hicur with h | h
      · exact absurd h (List.not_mem_nil i)
      · exact h
  | cons j js ih =>
    intro newj2len best hsound hsort hicur hdiag hzero hball hblo hbhi hnew
    obtain ⟨hjlo, hjhi, hjc, hanc⟩ := hsound j (List.mem_cons_self _ _)
    rcases List.pairwise_cons.mp hsort with ⟨hjlt, hsort'⟩
    have hnotin : j ∉ js := fun hc => lt_irrefl j (hjlt j hc)
    -- the computed run length is the chain value at (i, j)
    have hk : (if j = 0 then 0 else j2len (j - 1)) + 1 = chainLen a (anchored a) lo i j := by
      have hcond : lo ≤ i ∧ lo ≤ j ∧ getC a i = getC a j ∧ anchored a (getC a j) = true :=
        ⟨hloi, hjlo, hjc.symm, by rw [hjc]; exact hanc⟩
      conv_rhs => rw [chainLen]
      rw [if_pos hcond]
      by_cases h0 : j = 0
      · subst h0
        rw [if_pos rfl, dif_neg (by omega)]
      · rw [if_neg h0, hj2 (j - 1)]
        by_cases hli : lo < i
        · by_cases hlj : lo < j
          · rw [if_pos ⟨hli, by omega⟩, dif_pos ⟨hli, hlj⟩]
            omega
          · rw [dif_neg (fun hx => hlj hx.2), if_pos ⟨hli, by omega⟩]
            have hz : chainLen a (anchored a) lo (i - 1) (j - 1) = 0 := by
              rw [chainLen, if_neg]
              rintro ⟨_, hx, _, _⟩
              omega
            omega
        · rw [if_neg (fun hx => hli hx.1), dif_neg (fun hx => hli hx.1)]
    rw [dpProcessJ, hk]
    -- the written row entry satisfies the row invariant for the tail
    have hnew' : ∀ x,
        (fun x' => if x' = j then chainLen a (anchored a) lo i j else newj2len x') x =
        if lo ≤ x ∧ x < hi ∧ getC a x = getC a i ∧ anchored a (getC a i) = true ∧ x ∉ js
        then chainLen a (anchored a) lo i x else 0 := by
      intro x
      show (if x = j then chainLen a (anchored a) lo i j else newj2len x) = _
      by_cases hx : x = j
      · subst hx
        rw [if_pos rfl, if_pos ⟨hjlo, hjhi, hjc, hanc, hnotin⟩]
      · rw [if_neg hx, hnew x]
        by_cases hcnd : lo ≤ x ∧ x < hi ∧ getC a x = getC a i ∧
            anchored a (getC a i) = true ∧ x ∉ j :: js
        · rw [if_pos hcnd, if_pos ⟨hcnd.1, hcnd.2.1, hcnd.2.2.1, hcnd.2.2.2.1,
            fun hc => hcnd.2.2.2.2 (List.mem_cons_of_mem _ hc)⟩]
        · rw [if_neg hcnd, if_neg]
          rintro ⟨h1, h2, h3, h4, h5⟩
          refine hcnd ⟨h1, h2, h3, h4, fun hc => ?_⟩
          rcases List.mem_cons.mp hc with hc | hc
          · exact hx hc
          · exact h5 hc
    have hsound' : ∀ x ∈ js, lo ≤ x ∧ x < hi ∧ getC a x = getC a i ∧
        anchored a (getC a i) = true :=
      fun x hx => hsound x (List.mem_cons_of_mem _ hx)
    have hkle : chainLen a (anchored a) lo i j ≤ i + 1 - lo := by
      have h1 := chainLen_le_diag a (anchored a) lo j i
      have h2 := chainLen_symm a (anchored a) lo i j
      have h3 := chainLen_le a (anchored a) lo i i
      have h4 := chainLen_le a (anchored a) lo i j
      omega
    by_cases hji : j = i
    · -- the row's diagonal cell
      subst hji
      by_cases hlt : best.bestk < chainLen a (anchored a) lo j j
      · rw [if_pos hlt]
        obtain ⟨c1, c2, c3, c4, c5, c6, c7, c8⟩ := ih
          (fun x' => if x' = j then chainLen a (anchored a) lo j j else newj2len x')
          ⟨j + 1 - chainLen a (anchored a) lo j j, j + 1 - chainLen a (anchored a) lo j j,
            chainLen a (anchored a) lo j j⟩
          hsound' hsort'
          (Or.inr (show chainLen a (anchored a) lo j j ≤ chainLen a (anchored a) lo j j
            from le_refl _))
          rfl
          (fun h0 => by
            have h0' : chainLen a (anchored a) lo j j = 0 := h0
            exact absurd hlt (by omega))
          (fun d hdlo hdi =>
            show chainLen a (anchored a) lo d d ≤ chainLen a (anchored a) lo j j by
              have := hball d hdlo hdi
              omega)
          (show lo ≤ j + 1 - chainLen a (anchored a) lo j j by omega)
          (show j + 1 - chainLen a (anchored a) lo j j + chainLen a (anchored a) lo j j ≤ hi by
            have := chainLen_le a (anchored a) lo j j
            omega)
          hnew'
        have c7' : chainLen a (anchored a) lo j j
            ≤ (dpProcessJ j2len j js (fun x' =>
              if x' = j then chainLen a (anchored a) lo j j else newj2len x')
              ⟨j + 1 - chainLen a (anchored a) lo j j,
               j + 1 - chainLen a (anchored a) lo j j,
               chainLen a (anchored a) lo j j⟩).2.bestk := c7
        exact ⟨c1, c2, c3, c4, c5, c6, le_trans (le_of_lt hlt) c7', c8⟩
      · rw [if_neg hlt]
        obtain ⟨c1, c2, c3, c4, c5, c6, c7, c8⟩ := ih _ _ hsound' hsort'
          (Or.inr (by omega)) hdiag hzero hball hblo hbhi hnew'
        exact ⟨c1, c2, c3, c4, c5, c6, c7, c8⟩
    · -- off-diagonal cell: never a strict improvement
      have hnoupd : ¬ best.bestk < chainLen a (anchored a) lo i j := by
        rcases Nat.lt_or_ge j i with hji' | hji'
        · -- j < i: dominated by the earlier diagonal cell (j, j)
          have h1 := chainLen_le_diag a (anchored a) lo j i
          have h2 := hball j hjlo hji'
          omega
        · -- j > i: the row's own diagonal cell was already consumed
          have hji'' : i < j := lt_of_le_of_ne hji' (fun h => hji h.symm)
          have hicur' : chainLen a (anchored a) lo i i ≤ best.bestk := by
            rcases hicur with h | h
            · rcases List.mem_cons.mp h with h | h
              · exact absurd h.symm hji
              · exact absurd (hjlt i h) (by omega)
            · exact h
          have h1 := chainLen_le_diag a (anchored a) lo i j
          have h2 := chainLen_symm a (anchored a) lo i j
          omega
      rw [if_neg hnoupd]
      have hicur' : i ∈ js ∨ chainLen a (anchored a) lo i i ≤ best.bestk := by
        rcases hicur with h | h
        · rcases List.mem_cons.mp h with h | h
          · exact absurd h.symm hji
          · exact Or.inl h
        · exact Or.inr h
      exact ih _ _ hsound' hsort' hicur' hdiag hzero hball hblo hbhi hnew'

end Difflib
namespace Difflib

/-- Auxiliary: a position failing the row-membership side conditions has a
zero chain value. -/
theorem chainLen_eq_zero_of_not_mem (a : Chars) (lo : Nat) (i j : Nat)
    (h : ¬ (lo ≤ j ∧ getC a j = getC a i ∧ anchored a (getC a i) = true)) :
    chainLen a (anchored a) lo i j = 0 := by
  rw [chainLen, if_neg]
  rintro ⟨h1, h2, h3, h4⟩
  exact h ⟨h2, h3.symm, by rw [h3]; exact h4⟩

/-- The full scan on equal sequences keeps the best match diagonal, within
bounds, and with the zero-shape property. -/
theorem dpOuter_diag (a : Chars) (lo hi : Nat) (hhi : hi ≤ a.length) :
    ∀ (n i : Nat) (j2len : Nat → Nat) (best : Match3),
      lo ≤ i → i + n = hi →
      (∀ j, j2len j = if lo < i ∧ j < hi then chainLen a (anchored a) lo (i - 1) j else 0) →
      best.besti = best.bestj →
      (best.bestk = 0 → best.besti = lo) →
      (∀ d, lo ≤ d → d < i → chainLen a (anchored a) lo d d ≤ best.bestk) →
      lo ≤ best.besti → best.besti + best.bestk ≤ hi →
      (dpOuter a (b2j a) lo hi (List.range' i n) j2len best).besti
        = (dpOuter a (b2j a) lo hi (List.range' i n) j2len best).bestj ∧
      ((dpOuter a (b2j a) lo hi (List.range' i n) j2len best).bestk = 0 →
        (dpOuter a (b2j a) lo hi (List.range' i n) j2len best).besti = lo) ∧
      lo ≤ (dpOuter a (b2j a) lo hi (List.range' i n) j2len best).besti ∧
      (dpOuter a (b2j a) lo hi (List.range' i n) j2len best).besti
        + (dpOuter a (b2j a) lo hi (List.range' i n) j2len best).bestk ≤ hi := by
  intro n
  induction n with
  | zero =>
    intro i j2len best hloi hin hj2 hdiag hzero hball hblo hbhi
    exact ⟨hdiag, hzero, hblo, hbhi⟩
  | succ n ihn =>
    intro i j2len best hloi hin hj2 hdiag hzero hball hblo hbhi
    have hihi : i < hi := by omega
    rw [List.range'_succ, dpOuter]
    have hjsmem : ∀ j ∈ ((b2j a (getC a i)).takeWhile (fun j => j < hi)).filter
        (fun j => lo ≤ j), lo ≤ j ∧ j < hi ∧ getC a j = getC a i ∧
        anchored a (getC a i) = true := by
      intro j hj
      obtain ⟨hanc, hjlo, hjhi, hjc⟩ := (mem_js a lo hi hhi (getC a i) j).mp hj
      exact ⟨hjlo, hjhi, hjc, hanc⟩
    have hicur : i ∈ ((b2j a (getC a i)).takeWhile (fun j => j < hi)).filter
        (fun j => lo ≤ j) ∨ chainLen a (anchored a) lo i i ≤ best.bestk := by
      by_cases hanc : anchored a (getC a i) = true
      · exact Or.inl ((mem_js a lo hi hhi (getC a i) i).mpr ⟨hanc, hloi, hihi, rfl⟩)
      · refine Or.inr ?_
        rw [chainLen_eq_zero_of_not_mem a lo i i (fun hc => hanc hc.2.2)]
        exact Nat.zero_le _
    have hnew0 : ∀ j, (fun _ => 0 : Nat → Nat) j =
        if lo ≤ j ∧ j < hi ∧ getC a j = getC a i ∧ anchored a (getC a i) = true ∧
          j ∉ ((b2j a (getC a i)).takeWhile (fun j => j < hi)).filter (fun j => lo ≤ j)
        then chainLen a (anchored a) lo i j else 0 := by
      intro j
      rw [if_neg]
      rintro ⟨h1, h2, h3, h4, h5⟩
      exact h5 ((mem_js a lo hi hhi (getC a i) j).mpr ⟨h4, h1, h2, h3⟩)
    obtain ⟨d1, d2, d3, d4, d5, d6, d7, d8⟩ := dpProcessJ_diag a lo hi i hloi hihi j2len hj2
      (((b2j a (getC a i)).takeWhile (fun j => j < hi)).filter (fun j => lo ≤ j))
      (fun _ => 0) best hjsmem (js_pairwise a lo hi (getC a i)) hicur hdiag hzero hball
      hblo hbhi hnew0
    refine ihn (i + 1)
      (dpProcessJ j2len i
        (((b2j a (getC a i)).takeWhile (fun j => j < hi)).filter (fun j => lo ≤ j))
        (fun _ => 0) best).1
      (dpProcessJ j2len i
        (((b2j a (getC a i)).takeWhile (fun j => j < hi)).filter (fun j => lo ≤ j))
        (fun _ => 0) best).2
      (by omega) (by omega) ?_ d2 d3 ?_ d5 d6
    · intro j
      have hrhs : (if lo < i + 1 ∧ j < hi then chainLen a (anchored a) lo (i + 1 - 1) j else 0)
          = if j < hi then chainLen a (anchored a) lo i j else 0 := by
        by_cases hjh : j < hi
        · rw [if_pos ⟨by omega, hjh⟩, if_pos hjh, Nat.add_sub_cancel]
        · rw [if_neg (fun hx => hjh hx.2), if_neg hjh]
      rw [d1 j, hrhs]
      by_cases hjh : j < hi
      · rw [if_pos hjh]
        by_cases hcnd : lo ≤ j ∧ getC a j = getC a i ∧ anchored a (getC a i) = true
        · rw [if_pos ⟨hcnd.1, hjh, hcnd.2.1, hcnd.2.2⟩]
        · rw [if_neg (fun hx => hcnd ⟨hx.1, hx.2.2.1, hx.2.2.2⟩),
            chainLen_eq_zero_of_not_mem a lo i j hcnd]
      · rw [if_neg hjh, if_neg (fun hx => hjh hx.2.1)]
    · intro d hdlo hdi
      rcases Nat.lt_or_ge d i with hd | hd
      · exact d4 d hdlo hd
      · have : d = i := by omega
        subst this
        exact d8

end Difflib
namespace Difflib

/-- The backward extension loops on equal sequences with equal bounds: for any
fuel they keep the match diagonal and in bounds, only grow it, and are the
identity when they do not grow it. -/
theorem extendBack_props (a : Chars) (lo hi : Nat) (wj : Bool) (junk : Char → Bool) :
    ∀ (fuel bi bj bk : Nat), bi = bj → lo ≤ bi → bi + bk ≤ hi →
      (extendBack a a lo lo wj junk fuel ⟨bi, bj, bk⟩).besti
        = (extendBack a a lo lo wj junk fuel ⟨bi, bj, bk⟩).bestj ∧
      lo ≤ (extendBack a a lo lo wj junk fuel ⟨bi, bj, bk⟩).besti ∧
      (extendBack a a lo lo wj junk fuel ⟨bi, bj, bk⟩).besti
        + (extendBack a a lo lo wj junk fuel ⟨bi, bj, bk⟩).bestk ≤ hi ∧
      bk ≤ (extendBack a a lo lo wj junk fuel ⟨bi, bj, bk⟩).bestk ∧
      ((extendBack a a lo lo wj junk fuel ⟨bi, bj, bk⟩).bestk = bk →
        extendBack a a lo lo wj junk fuel ⟨bi, bj, bk⟩ = ⟨bi, bj, bk⟩) := by
  intro fuel
  induction fuel with
  | zero =>
    intro bi bj bk hdiag hlo hhi2
    subst hdiag
    exact ⟨rfl, hlo, hhi2, le_refl _, fun _ => rfl⟩
  | succ fuel ih =>
    intro bi bj bk hdiag hlo hhi2
    subst hdiag
    rw [extendBack]
    split
    · next h =>
      obtain ⟨h1, h2, h3, h4⟩ := h
      have hrec := ih (bi - 1) (bi - 1) (bk + 1) rfl (by omega) (by omega)
      refine ⟨hrec.1, hrec.2.1, hrec.2.2.1, ?_, ?_⟩
      · have := hrec.2.2.2.1
        omega
      · intro heq
        exfalso
        have := hrec.2.2.2.1
        omega
    · exact ⟨rfl, hlo, hhi2, le_refl _, fun _ => rfl⟩

/-- A backward extension whose match already starts at `alo` cannot move and
returns its input, whatever the fuel. -/
theorem extendBack_at_lo (a b : Chars) (alo blo : Nat) (wj : Bool) (junk : Char → Bool) :
    ∀ (fuel bj bk : Nat), extendBack a b alo blo wj junk fuel ⟨alo, bj, bk⟩ = ⟨alo, bj, bk⟩ := by
  intro fuel bj bk
  cases fuel with
  | zero => rfl
  | succ fuel => rw [extendBack, if_neg (fun hc => lt_irrefl alo hc.1)]

/-- A forward extension whose loop guard is false returns its input, whatever
the fuel. -/
theorem extendFwd_stop (a b : Chars) (ahi bhi : Nat) (wj : Bool) (junk : Char → Bool)
    (bi bj bk : Nat)
    (hstop : ¬(bi + bk < ahi ∧ bj + bk < bhi ∧ junk (getC b (bj + bk)) = wj ∧
        getC a (bi + bk) = getC b (bj + bk))) :
    ∀ fuel, extendFwd a b ahi bhi wj junk fuel ⟨bi, bj, bk⟩ = ⟨bi, bj, bk⟩ := by
  intro fuel
  cases fuel with
  | zero => rfl
  | succ fuel => rw [extendFwd, if_neg hstop]

/-- The forward extension loops on equal sequences with equal bounds:
diagonal, in bounds, monotone, identity when not growing. -/
theorem extendFwd_props (a : Chars) (lo hi : Nat) (wj : Bool) (junk : Char → Bool) :
    ∀ (fuel bi bj bk : Nat), bi = bj → lo ≤ bi → bi + bk ≤ hi →
      (extendFwd a a hi hi wj junk fuel ⟨bi, bj, bk⟩).besti
        = (extendFwd a a hi hi wj junk fuel ⟨bi, bj, bk⟩).bestj ∧
      lo ≤ (extendFwd a a hi hi wj junk fuel ⟨bi, bj, bk⟩).besti ∧
      (extendFwd a a hi hi wj junk fuel ⟨bi, bj, bk⟩).besti
        + (extendFwd a a hi hi wj junk fuel ⟨bi, bj, bk⟩).bestk ≤ hi ∧
      bk ≤ (extendFwd a a hi hi wj junk fuel ⟨bi, bj, bk⟩).bestk ∧
      ((extendFwd a a hi hi wj junk fuel ⟨bi, bj, bk⟩).bestk = bk →
        extendFwd a a hi hi wj junk fuel ⟨bi, bj, bk⟩ = ⟨bi, bj, bk⟩) := by
  intro fuel
  induction fuel with
  | zero =>
    intro bi bj bk hdiag hlo hhi2
    subst hdiag
    exact ⟨rfl, hlo, hhi2, le_refl _, fun _ => rfl⟩
  | succ fuel ih =>
    intro bi bj bk hdiag hlo hhi2
    subst hdiag
    rw [extendFwd]
    split
    · next h =>
      obtain ⟨h1, h2, h3, h4⟩ := h
      have hrec := ih bi bi (bk + 1) rfl hlo (by omega)
      refine ⟨hrec.1, hrec.2.1, hrec.2.2.1, ?_, ?_⟩
      · have := hrec.2.2.2.1
        omega
      · intro heq
        exfalso
        have := hrec.2.2.2.1
        omega
    · exact ⟨rfl, hlo, hhi2, le_refl _, fun _ => rfl⟩

end Difflib
namespace Difflib

/-- `find_longest_match` on equal sequences over a common interval returns a
diagonal match inside the interval, and a non-empty one whenever the interval
is non-empty. -/
theorem findLongestMatch_diag (a : Chars) (lo hi : Nat) (hhi : hi ≤ a.length)
    (hlohi : lo ≤ hi) :
    (findLongestMatch a a (b2j a) (bjunk a) lo hi lo hi).besti
      = (findLongestMatch a a (b2j a) (bjunk a) lo hi lo hi).bestj ∧
    lo ≤ (findLongestMatch a a (b2j a) (bjunk a) lo hi lo hi).besti ∧
    (findLongestMatch a a (b2j a) (bjunk a) lo hi lo hi).besti
      + (findLongestMatch a a (b2j a) (bjunk a) lo hi lo hi).bestk ≤ hi ∧
    (lo < hi → 1 ≤ (findLongestMatch a a (b2j a) (bjunk a) lo hi lo hi).bestk) := by
  obtain ⟨e1, e2, e3, e4⟩ := dpOuter_diag a lo hi hhi (hi - lo) lo (fun _ => 0) ⟨lo, lo, 0⟩
    (le_refl _) (by omega)
    (fun j => (if_neg (fun hx => lt_irrefl lo hx.1)).symm)
    rfl (fun _ => rfl)
    (fun d hdlo hdi => absurd (lt_of_le_of_lt hdlo hdi) (lt_irrefl lo))
    (le_refl _) (show lo + 0 ≤ hi by omega)
  set st0 := dpOuter a (b2j a) lo hi (List.range' lo (hi - lo)) (fun _ => 0) ⟨lo, lo, 0⟩
    with hst0
  obtain ⟨f1, f2, f3, f4, f5⟩ :=
    extendBack_props a lo hi false (bjunk a) st0.besti st0.besti st0.bestj st0.bestk e1 e3 e4
  set st1 := extendBack a a lo lo false (bjunk a) st0.besti ⟨st0.besti, st0.bestj, st0.bestk⟩
    with hst1
  obtain ⟨g1, g2, g3, g4, g5⟩ :=
    extendFwd_props a lo hi false (bjunk a) (hi - (st1.besti + st1.bestk))
      st1.besti st1.bestj st1.bestk f1 f2 f3
  set st2 := extendFwd a a hi hi false (bjunk a) (hi - (st1.besti + st1.bestk))
    ⟨st1.besti, st1.bestj, st1.bestk⟩ with hst2
  obtain ⟨p1, p2, p3, p4, p5⟩ :=
    extendBack_props a lo hi true (bjunk a) st2.besti st2.besti st2.bestj st2.bestk g1 g2 g3
  set st3 := extendBack a a lo lo true (bjunk a) st2.besti ⟨st2.besti, st2.bestj, st2.bestk⟩
    with hst3
  obtain ⟨q1, q2, q3, q4, q5⟩ :=
    extendFwd_props a lo hi true (bjunk a) (hi - (st3.besti + st3.bestk))
      st3.besti st3.bestj st3.bestk p1 p2 p3
  set st4 := extendFwd a a hi hi true (bjunk a) (hi - (st3.besti + st3.bestk))
    ⟨st3.besti, st3.bestj, st3.bestk⟩ with hst4
  have hmain : findLongestMatch a a (b2j a) (bjunk a) lo hi lo hi = st4 := rfl
  rw [hmain]
  refine ⟨q1, q2, q3, ?_⟩
  intro hlt
  by_cases hz : st0.bestk = 0
  · -- the scan found nothing: the forward extensions still grab `a[lo]`
    have hi0 : st0.besti = lo := e2 hz
    have hj0 : st0.bestj = lo := by rw [← e1, hi0]
    have hb1 : st1 = ⟨lo, lo, 0⟩ := by
      rw [hst1, hi0, hj0, hz]
      exact extendBack_at_lo a a lo lo false (bjunk a) lo lo 0
    by_cases hj : bjunk a (getC a lo) = true
    · -- `a[lo]` is junk: the non-junk pass does nothing, the junk pass fires
      have hb2 : st2 = ⟨lo, lo, 0⟩ := by
        rw [hst2, hb1]
        show extendFwd a a hi hi false (bjunk a) (hi - (lo + 0)) ⟨lo, lo, 0⟩ = ⟨lo, lo, 0⟩
        refine extendFwd_stop a a hi hi false (bjunk a) lo lo 0 ?_ _
        rintro ⟨h1, h2, h3, h4⟩
        rw [Nat.add_zero] at h3
        rw [hj] at h3
        cases h3
      have hb3 : st3 = ⟨lo, lo, 0⟩ := by
        rw [hst3, hb2]
        show extendBack a a lo lo true (bjunk a) lo ⟨lo, lo, 0⟩ = ⟨lo, lo, 0⟩
        exact extendBack_at_lo a a lo lo true (bjunk a) lo lo 0
      rw [hst4, hb3]
      show 1 ≤ (extendFwd a a hi hi true (bjunk a) (hi - (lo + 0)) ⟨lo, lo, 0⟩).bestk
      obtain ⟨n, hn⟩ : ∃ n, hi - (lo + 0) = n + 1 := ⟨hi - lo - 1, by omega⟩
      rw [hn, extendFwd, if_pos ⟨show lo + 0 < hi by omega, show lo + 0 < hi by omega,
        by simpa using hj, rfl⟩]
      show 1 ≤ (extendFwd a a hi hi true (bjunk a) n ⟨lo, lo, 0 + 1⟩).bestk
      have hm := (extendFwd_props a lo hi true (bjunk a) n lo lo (0 + 1) rfl
        (le_refl _) (by omega)).2.2.2.1
      omega
    · -- `a[lo]` is not junk: the non-junk forward pass fires
      have hb2 : 1 ≤ st2.bestk := by
        rw [hst2, hb1]
        show 1 ≤ (extendFwd a a hi hi false (bjunk a) (hi - (lo + 0)) ⟨lo, lo, 0⟩).bestk
        obtain ⟨n, hn⟩ : ∃ n, hi - (lo + 0) = n + 1 := ⟨hi - lo - 1, by omega⟩
        rw [hn, extendFwd, if_pos ⟨show lo + 0 < hi by omega, show lo + 0 < hi by omega,
          by simpa using hj, rfl⟩]
        show 1 ≤ (extendFwd a a hi hi false (bjunk a) n ⟨lo, lo, 0 + 1⟩).bestk
        have hm := (extendFwd_props a lo hi false (bjunk a) n lo lo (0 + 1) rfl
          (le_refl _) (by omega)).2.2.2.1
        omega
      omega
  · omega

end Difflib
namespace Difflib

/-- The queue recursion of `get_matching_blocks` on equal sequences covers
the whole interval: every matching-block size adds up to the interval
length.  The fuel only needs to dominate the interval length. -/
theorem matchesSumFuel_diag (a : Chars) :
    ∀ (fuel lo hi : Nat), hi ≤ a.length → lo ≤ hi → hi - lo ≤ fuel →
      matchesSumFuel a a (b2j a) (bjunk a) fuel lo hi lo hi = hi - lo := by
  intro fuel
  induction fuel with
  | zero =>
    intro lo hi hhi hlh hfl
    have heq : hi = lo := by omega
    subst heq
    simp [matchesSumFuel]
  | succ fuel ih =>
    intro lo hi hhi hlh hfl
    obtain ⟨m1, m2, m3, m4⟩ := findLongestMatch_diag a lo hi hhi hlh
    rw [matchesSumFuel]
    simp only [← m1]
    by_cases hz : (findLongestMatch a a (b2j a) (bjunk a) lo hi lo hi).bestk = 0
    · rw [if_pos hz]
      rcases Nat.lt_or_ge lo hi with h | h
      · exact absurd hz (by have := m4 h; omega)
      · omega
    · rw [if_neg hz]
      by_cases hl : lo < (findLongestMatch a a (b2j a) (bjunk a) lo hi lo hi).besti
      · rw [if_pos ⟨hl, hl⟩]
        by_cases hr : (findLongestMatch a a (b2j a) (bjunk a) lo hi lo hi).besti
            + (findLongestMatch a a (b2j a) (bjunk a) lo hi lo hi).bestk < hi
        · rw [if_pos ⟨hr, hr⟩,
            ih lo _ (by omega) (by omega) (by omega),
            ih _ hi hhi (by omega) (by omega)]
          omega
        · rw [if_neg (fun hx => hr hx.1),
            ih lo _ (by omega) (by omega) (by omega)]
          omega
      · rw [if_neg (fun hx => hl hx.1)]
        by_cases hr : (findLongestMatch a a (b2j a) (bjunk a) lo hi lo hi).besti
            + (findLongestMatch a a (b2j a) (bjunk a) lo hi lo hi).bestk < hi
        · rw [if_pos ⟨hr, hr⟩, ih _ hi hhi (by omega) (by omega)]
          omega
        · rw [if_neg (fun hx => hr hx.1)]
          omega

/-- The total matched size of a sequence against itself is its length. -/
theorem seqMatches_refl (a : Chars) : seqMatches a a = a.length := by
  unfold seqMatches
  rw [matchesSumFuel_diag a (a.length + a.length + 1) 0 a.length (le_refl _)
    (Nat.zero_le _) (by omega)]
  omega

/-- `_calculate_ratio(n, n + n) = 1`. -/
theorem calculateRatio_self (n : Nat) : calculateRatio n (n + n) = 1 := by
  unfold calculateRatio
  by_cases h : n = 0
  · subst h
    simp
  · rw [if_pos (by omega), Rat.mkRat_eq_div]
    have hq : (n : ℚ) ≠ 0 := Nat.cast_ne_zero.mpr h
    push_cast
    field_simp
    ring

/-- `SequenceMatcher.ratio()` of a sequence with itself is `1.0`. -/
theorem ratio_refl (a : Chars) : ratio a a = 1 := by
  unfold ratio
  rw [seqMatches_refl]
  exact calculateRatio_self a.length

/-- `real_quick_ratio` of a sequence with itself is `1.0`. -/
theorem real_quick_ratio_refl (a : Chars) : real_quick_ratio a a = 1 := by
  unfold real_quick_ratio
  rw [Nat.min_self]
  exact calculateRatio_self a.length

/-- Occurrence counts concatenate additively. -/
theorem countChar_append (s t : Chars) (c : Char) :
    countChar (s ++ t) c = countChar s c + countChar t c := by
  simp [countChar, List.filter_append]

/-- Occurrence count of the head character. -/
theorem countChar_cons_self (s : Chars) (c : Char) :
    countChar (c :: s) c = 1 + countChar s c := by
  simp only [countChar, List.filter_cons]
  rw [if_pos (by simp)]
  simp [Nat.add_comm]

/-- The `quick_ratio` loop on a sequence against its own character counts
draws every character successfully. -/
theorem quickAux_refl (b : Chars) :
    ∀ (rest done : Chars) (avail : Char → Option Int) (acc : Nat),
      b = done ++ rest →
      (∀ c, avail c = some ((countChar b c : Int) - countChar done c) ∨
        (avail c = none ∧ countChar done c = 0)) →
      quickAux (countChar b) rest avail acc = acc + rest.length := by
  intro rest
  induction rest with
  | nil =>
    intro done avail acc hb hav
    simp [quickAux]
  | cons c cs ih =>
    intro done avail acc hb hav
    rw [quickAux]
    have hcount : countChar b c = countChar done c + 1 + countChar cs c := by
      rw [hb, countChar_append, countChar_cons_self]
      omega
    have hsing : countChar [c] c = 1 := by
      simp only [countChar, List.filter_cons, List.filter_nil]
      rw [if_pos (by simp)]
      rfl
    have hdone : ∀ x, countChar (done ++ [c]) x
        = countChar done x + (if x = c then 1 else 0) := by
      intro x
      rw [countChar_append]
      by_cases hx : x = c
      · subst hx
        rw [hsing, if_pos rfl]
      · have hz : countChar [c] x = 0 := by
          simp only [countChar, List.filter_cons, List.filter_nil]
          rw [if_neg (fun h => hx ((of_decide_eq_true h).symm))]
          rfl
        rw [hz, if_neg hx]
    have hpos : 0 < (match avail c with
        | some n => n
        | none => (countChar b c : Int)) := by
      rcases hav c with h | ⟨h, hz⟩
      · rw [h]
        show 0 < (countChar b c : Int) - countChar done c
        omega
      · rw [h]
        show 0 < (countChar b c : Int)
        omega
    rw [if_pos hpos]
    rw [ih (done ++ [c]) _ (acc + 1) (by rw [hb]; simp) ?_]
    · simp only [List.length_cons]
      omega
    · intro x
      by_cases hx : x = c
      · subst hx
        left
        show (if x = x then some ((match avail x with
            | some n => n
            | none => (countChar b x : Int)) - 1) else avail x) = _
        rw [if_pos rfl, hdone x, if_pos rfl]
        rcases hav x with h | ⟨h, hz⟩
        · rw [h]
          congr 1
          show ((countChar b x : Int) - countChar done x) - 1 = _
          push_cast
          omega
        · rw [h, hz]
          congr 1
      · show ((if x = c then some ((match avail c with
            | some n => n
            | none => (countChar b c : Int)) - 1) else avail x)
            = some ((countChar b x : Int) - countChar (done ++ [c]) x)) ∨
          ((if x = c then some ((match avail c with
            | some n => n
            | none => (countChar b c : Int)) - 1) else avail x) = none ∧
            countChar (done ++ [c]) x = 0)
        rw [if_neg hx, hdone x, if_neg hx]
        simpa using hav x

/-- `quick_ratio` of a sequence with itself is `1.0`. -/
theorem quick_ratio_refl (a : Chars) : quick_ratio a a = 1 := by
  unfold quick_ratio
  rw [quickAux_refl a a [] (fun _ => none) 0 (by simp)
    (fun c => Or.inr ⟨rfl, by simp [countChar]⟩)]
  simpa using calculateRatio_self a.length

end Difflib
namespace Core

/-- The resolver's acceptance test passes when an item name equals the query:
all three ratios are `1.0`. -/
theorem matchPred_refl (a : Difflib.Chars) : matchPred a a = true := by
  unfold matchPred
  rw [Difflib.ratio_refl, Difflib.quick_ratio_refl, Difflib.real_quick_ratio_refl]
  decide

/-- C8 is refuted: in the corpus `{"Abcd", "A Bcd"}`, the query `"Abcd"` is
an exact corpus name, yet resolving it with limit 1 returns only the entity
of `"A Bcd"`: the lowercased query `"abcd"` is an abbreviation-index key for
`"A Bcd"` (its squashed form), the abbreviation match fills the whole limit,
and the reflexive fuzzy match is cut off. -/
theorem claim_exact_name_included_counterexample :
    get_matching_items [("Abcd", 1), ("A Bcd", 2)] "Abcd"
      (abbreviate_names ["Abcd", "A Bcd"]) 1 = .ok [2] ∧ (1 : Nat) ∉ [2] := by
  constructor
  · decide
  · decide

/-- C8 amended: resolving a query that is exactly one of the corpus's full
names includes that name's entity (its similarity ratio is `1.0`, at least
the `0.6` cutoff) provided the lowercased query is not an exact key of the
abbreviation index and the limit is at least the corpus size; an
abbreviation-key collision can otherwise fill the limit first and exclude
the entity. -/
theorem claim_exact_name_included_amended {α : Type} (mapping : List (String × α))
    (abbrevs : List (String × List String)) (limit : Nat) (query : String) (v : α)
    (hq : (query, v) ∈ mapping)
    (hnk : dictLookup abbrevs (pyLower query) = none)
    (hlim : mapping.length ≤ limit) :
    ∃ res, get_matching_items mapping query abbrevs limit = .ok res ∧ v ∈ res := by
  have hpair : ((1 : ℚ), v) ∈ fuzzyMatched mapping (pyLower query).data := by
    unfold fuzzyMatched
    apply List.mem_filterMap.mpr
    refine ⟨(query, v), hq, ?_⟩
    simp only
    rw [if_pos (matchPred_refl _), Difflib.ratio_refl]
  have hlen : (fuzzyMatched mapping (pyLower query).data).length ≤ mapping.length :=
    List.length_filterMap_le _ _
  have hne : (fuzzyMatched mapping (pyLower query).data).isEmpty = false := by
    rcases h : (fuzzyMatched mapping (pyLower query).data) with _ | ⟨p, rest⟩
    · rw [h] at hpair
      exact absurd hpair (List.not_mem_nil _)
    · rfl
  have hall : nlargest (limit - ([] : List α).length)
        (fuzzyMatched mapping (pyLower query).data)
      = sortDesc (fuzzyMatched mapping (pyLower query).data) := by
    unfold nlargest
    apply List.take_of_length_le
    rw [(sortDesc_perm _).length_eq]
    simp only [List.length_nil, Nat.sub_zero]
    omega
  refine ⟨((nlargest (limit - ([] : List α).length)
      (fuzzyMatched mapping (pyLower query).data)).map Prod.snd), ?_, ?_⟩
  · unfold get_matching_items
    simp only [hnk, bind, Except.bind, hne, Bool.false_eq_true, if_false, pure, Except.pure]
    rw [List.nil_append]
  · rw [hall]
    exact List.mem_map.mpr ⟨(1, v), (sortDesc_perm _).mem_iff.mpr hpair, rfl⟩

/-- Witness for C8's amendment: a one-item corpus whose multi-word name is
not its own index key. -/
theorem claim_exact_name_included_amended_witness :
    ∃ res, get_matching_items [("Hybrid Heat Cannon", 7)] "Hybrid Heat Cannon"
      (abbreviate_names ["Hybrid Heat Cannon"]) 25 = .ok res ∧ 7 ∈ res :=
  claim_exact_name_included_amended [("Hybrid Heat Cannon", 7)]
    (abbreviate_names ["Hybrid Heat Cannon"]) 25 "Hybrid Heat Cannon" 7
    (by decide) (by decide) (by decide)

end Core
